import Mathlib

/-!
# Verification of the GDrive synchronization engine (`app/core/sync.js`)

This file is a shallow embedding of the synchronization core of the GDrive
repository.  Pure functions of the source become Lean functions; the stateful
methods of the `Sync` class become explicit state-passing functions over a
`SyncState` record.  Asynchronous JavaScript code is modelled sequentially
(the engine runs on a single event loop); remote RPCs are modelled by a fixed
deterministic environment.  Recursive walks (`getPaths` and the functions it
calls) are given explicit fuel; running out of fuel is an error, mirroring the
fact that the JavaScript recursion only terminates on acyclic parent graphs.

Filesystem effects are modelled by a map from absolute paths to disk entries,
together with an event trace recording the order of `ignore`, `mkdirp`,
`rename`, `remove` and `copy` calls, so that ordering claims ("preceded by an
ignore call", "destination directory created first") can be stated.
-/

namespace GDrive

/-- A remote file record, with exactly the fields the source requests
(`fileInfoFields = "id, name, mimeType, md5Checksum, size, modifiedTime,
parents, trashed"`).  `md5Checksum`, `size` and `parents` are optional as in
the wire format (absent for folders / non-blobs / parentless records). -/
structure FileRecord where
  id : String
  name : String
  mimeType : String
  md5Checksum : Option String
  size : Option Nat
  modifiedTime : String
  parents : Option (List String)
  trashed : Bool
deriving DecidableEq, Repr, Inhabited

/-- One record of the remote change feed (`changeInfoFields = "time, removed,
fileId, file(...)"`). The `file` field is absent for some removal changes. -/
structure ChangeRec where
  removed : Bool
  fileId : String
  file : Option FileRecord
deriving DecidableEq, Repr, Inhabited

/-- Lexicographic comparison of character lists by code point, mirroring
JavaScript's code-unit string comparison (identical on the ASCII strings the
engine compares). -/
def listLtB : List Char → List Char → Bool
  | [], [] => false
  | [], _ :: _ => true
  | _ :: _, [] => false
  | a :: as, b :: bs =>
    if a.val.toNat < b.val.toNat then true
    else if b.val.toNat < a.val.toNat then false
    else listLtB as bs

/-- JavaScript string comparison `a < b`. -/
def strLtB (a b : String) : Bool := listLtB a.data b.data

/-- JavaScript string comparison `a > b` (lexicographic). -/
def strGt (a b : String) : Bool := strLtB b a

/-- `Sync.noChange(oldInfo, newInfo)` translated from the source:
return `false` when the new `modifiedTime` is strictly greater, when the
names differ, or when the `parents` fields are not `deepEqual`
(`deep-equal` on arrays is element-wise and order-sensitive);
otherwise return `true`. -/
def noChange (oldInfo newInfo : FileRecord) : Bool :=
  if strGt newInfo.modifiedTime oldInfo.modifiedTime then false
  else if oldInfo.name ≠ newInfo.name then false
  else if oldInfo.parents ≠ newInfo.parents then false
  else true

/-- Two optional parent lists are equal as finite sets of ids
(the reading of "equal parent sets" in the specification). -/
def sameParentSet (a b : Option (List String)) : Bool :=
  (a.getD []).all (· ∈ b.getD []) && (b.getD []).all (· ∈ a.getD [])

/-! ## The remote change poller (`watchChanges`, lines 295–316)

The adaptive polling interval.  Intervals are rationals (milliseconds), since
the JavaScript arithmetic `pollDelay * 1.5` leaves the integers. -/

/-- `let pollDelay = 8000` — the initial polling interval. -/
def initialDelay : ℚ := 8000

/-- `const minDelay = 2000` — minimum polling interval when changes detected. -/
def minDelay : ℚ := 2000

/-- `const maxDelay = 30000` — maximum polling interval when idle. -/
def maxDelay : ℚ := 30000

/-- `const backoffMultiplier = 1.5`. -/
def backoffMultiplier : ℚ := 3 / 2

/-- The update of `pollDelay` performed by one iteration of the
`watchChanges` loop: in steady state (`!this.syncing && this.synced`), reset
to `minDelay` when `handleNewChanges` detected changes, otherwise multiply by
the backoff factor capped at `maxDelay`; outside steady state reset to the
initial delay. -/
def pollStep (syncing synced changesDetected : Bool) (d : ℚ) : ℚ :=
  if !syncing && synced then
    if changesDetected then minDelay
    else min (d * backoffMultiplier) maxDelay
  else initialDelay

/-- The successive values taken by `pollDelay` across steady-state
iterations, starting from `d` and given for each iteration whether changes
were detected: `pollTrace d bs = [d, d₁, d₂, …]` with
`dᵢ₊₁ = pollStep false true bsᵢ dᵢ`. -/
def pollTrace (d : ℚ) : List Bool → List ℚ
  | [] => [d]
  | b :: bs => d :: pollTrace (pollStep false true b d) bs

theorem pollTrace_length (d : ℚ) (bs : List Bool) :
    (pollTrace d bs).length = bs.length + 1 := by
  induction bs generalizing d with
  | nil => rfl
  | cons b bs ih => simp [pollTrace, ih]

theorem pollTrace_getD_zero (d : ℚ) (bs : List Bool) :
    (pollTrace d bs).getD 0 0 = d := by
  cases bs <;> rfl

theorem pollTrace_getD_succ (d : ℚ) (bs : List Bool) (i : Nat)
    (hi : i < bs.length) :
    (pollTrace d bs).getD (i + 1) 0 =
      pollStep false true (bs.getD i false) ((pollTrace d bs).getD i 0) := by
  induction bs generalizing d i with
  | nil => exact absurd hi (by simp)
  | cons b bs ih =>
    cases i with
    | zero =>
      simp only [pollTrace, List.getD_cons_succ, List.getD_cons_zero]
      exact pollTrace_getD_zero _ bs
    | succ i =>
      have hi' : i < bs.length := by simpa using hi
      simpa [pollTrace] using ih (pollStep false true b d) i hi'

theorem pollStep_ge_min (b : Bool) (d : ℚ) (hd : minDelay ≤ d) :
    minDelay ≤ pollStep false true b d := by
  cases b with
  | true => exact le_refl _
  | false =>
    show minDelay ≤ min (d * backoffMultiplier) maxDelay
    refine le_min ?_ ?_
    · unfold minDelay backoffMultiplier at *
      nlinarith
    · unfold minDelay maxDelay
      norm_num

theorem pollTrace_ge_min (d : ℚ) (bs : List Bool) (hd : minDelay ≤ d)
    (i : Nat) (hi : i < bs.length + 1) :
    minDelay ≤ (pollTrace d bs).getD i 0 := by
  induction bs generalizing d i with
  | nil =>
    have : i = 0 := by simp only [List.length_nil] at hi; omega
    subst this
    simpa [pollTrace] using hd
  | cons b bs ih =>
    cases i with
    | zero => simpa [pollTrace] using hd
    | succ i =>
      have := ih (pollStep false true b d) (pollStep_ge_min b d hd) i
        (by simpa using hi)
      simpa [pollTrace] using this

/-! ## The change feed (`getNewChanges`, lines 773–806) and one poller
iteration (`handleNewChanges` / `handleChanges`, lines 330–378)

Tokens are modelled as naturals; `≤` on them is "the server's ordering".
The events of one iteration are recorded in order, so that statements about
*when* the `changeToken` advances relative to the application of changes and
the checkpoint writes can be made. -/

/-- One page of a `drive.changes.list` response
(`changesListFields = "nextPageToken, newStartPageToken, changes(...)"`). -/
structure ChangePage where
  changes : List ChangeRec
  nextPageToken : Option Nat
  newStartPageToken : Option Nat
deriving DecidableEq, Repr

/-- The change-feed environment: the page the server serves for each page
token (`none` models a request error). -/
def FeedEnv := Nat → Option ChangePage

/-- Events of one poller iteration. -/
inductive PollEv where
  /-- `this.changeToken = result.newStartPageToken` (line 798). -/
  | tokenUpdate (t : Nat)
  /-- `this.handleChange(nextChange)` on one change. -/
  | applyChange (c : ChangeRec)
  /-- `this.save()` writing the checkpoint, which persists the current
  `changeToken` `t`. -/
  | saveCheckpoint (t : Nat)
deriving DecidableEq, Repr

def PollEv.isTokenUpdate : PollEv → Bool
  | .tokenUpdate _ => true
  | _ => false

def PollEv.isApply : PollEv → Bool
  | .applyChange _ => true
  | _ => false

def PollEv.isSave : PollEv → Bool
  | .saveCheckpoint _ => true
  | _ => false

/-- The page-draining loop of `getNewChanges`: follow `nextPageToken` until
exhausted, concatenating `result.changes`, and adopt `newStartPageToken`
into `changeToken` whenever a page carries one (emitting a `tokenUpdate`
event).  `none` models a request error or a non-terminating page chain. -/
def getNewChangesLoop (env : FeedEnv) :
    Nat → Option Nat → List ChangeRec → Nat → List PollEv →
    Option (List ChangeRec × Nat × List PollEv)
  | _, none, acc, changeToken, evs => some (acc, changeToken, evs)
  | 0, some _, _, _, _ => none
  | fuel + 1, some t, acc, changeToken, evs =>
    match env t with
    | none => none
    | some page =>
      match page.newStartPageToken with
      | some s =>
        getNewChangesLoop env fuel page.nextPageToken (acc ++ page.changes)
          s (evs ++ [PollEv.tokenUpdate s])
      | none =>
        getNewChangesLoop env fuel page.nextPageToken (acc ++ page.changes)
          changeToken evs

/-- `getNewChanges`, entered with the current (non-null) `changeToken`. -/
def getNewChanges (env : FeedEnv) (fuel : Nat) (changeToken : Nat) :
    Option (List ChangeRec × Nat × List PollEv) :=
  getNewChangesLoop env fuel (some changeToken) [] changeToken []

/-- The event trace of `handleChanges` applying the fetched changes: each
change is applied; if its application reported a change
(`await this.handleChange(nextChange)` truthy, abstracted by `applies`), the
checkpoint is saved, persisting the current `changeToken` `tok`. -/
def handleChangesEv (applies : ChangeRec → Bool) (tok : Nat) :
    List ChangeRec → List PollEv
  | [] => []
  | c :: cs =>
    PollEv.applyChange c ::
      ((if applies c then [PollEv.saveCheckpoint tok] else []) ++
        handleChangesEv applies tok cs)

/-- One steady-state poller iteration (`handleNewChanges`): fetch all new
changes (updating `changeToken` on the way), then apply them, saving after
each applied change.  Returns the event trace, the new token, and whether
changes were detected (`changesCount > 0`, the value `handleNewChanges`
returns). -/
def handleNewChangesEv (env : FeedEnv) (applies : ChangeRec → Bool)
    (fuel : Nat) (changeToken : Nat) :
    Option (List PollEv × Nat × Bool) :=
  match getNewChanges env fuel changeToken with
  | none => none
  | some (changes, tok, evs) =>
    some (evs ++ handleChangesEv applies tok changes, tok,
      decide (0 < changes.length))

/-- `n` successive poller iterations, threading the `changeToken`,
concatenating the event traces. -/
def pollerRuns (env : FeedEnv) (applies : ChangeRec → Bool) (fuel : Nat) :
    Nat → Nat → Option (List PollEv × Nat)
  | 0, tok => some ([], tok)
  | n + 1, tok =>
    match handleNewChangesEv env applies fuel tok with
    | none => none
    | some (tr, tok1, _) =>
      match pollerRuns env applies fuel n tok1 with
      | none => none
      | some (tr2, tok2) => some (tr ++ tr2, tok2)

/-- The checkpointed token values appearing in a trace, in order. -/
def savedTokens (tr : List PollEv) : List Nat :=
  tr.filterMap fun e =>
    match e with
    | PollEv.saveCheckpoint t => some t
    | _ => none

/-- The server serves non-decreasing cursors: every `nextPageToken` and
every `newStartPageToken` on a page is at least the token the page was
requested with. -/
def ServerMonotone (env : FeedEnv) : Prop :=
  ∀ t page, env t = some page →
    (∀ s, page.newStartPageToken = some s → t ≤ s) ∧
    (∀ nt, page.nextPageToken = some nt → t ≤ nt)

/-- The property claimed of a poller-iteration trace: the token is advanced
only after all fetched changes have been applied and a checkpoint has been
written. -/
def tokenAdvancesLast (tr : List PollEv) : Prop :=
  ∀ i, i < tr.length → (tr.getD i (PollEv.applyChange default)).isTokenUpdate →
    (∀ j, j < tr.length → (tr.getD j (PollEv.applyChange default)).isApply →
      j < i) ∧
    (∃ j, j < i ∧ (tr.getD j (PollEv.applyChange default)).isSave)

instance : DecidablePred tokenAdvancesLast := by
  intro tr
  unfold tokenAdvancesLast
  infer_instance

/-! ### Structural lemmas about poller traces -/

theorem getNewChangesLoop_evs (env : FeedEnv) :
    ∀ (fuel : Nat) (pt : Option Nat) (acc : List ChangeRec) (tok : Nat)
      (evs : List PollEv) (cs : List ChangeRec) (tok2 : Nat)
      (evs2 : List PollEv),
    getNewChangesLoop env fuel pt acc tok evs = some (cs, tok2, evs2) →
    (∀ e ∈ evs, e.isTokenUpdate = true) →
    ∀ e ∈ evs2, e.isTokenUpdate = true := by
  intro fuel
  induction fuel with
  | zero =>
    intro pt acc tok evs cs tok2 evs2 h hall
    cases pt with
    | none =>
      simp only [getNewChangesLoop, Option.some.injEq, Prod.mk.injEq] at h
      obtain ⟨-, -, rfl⟩ := h
      exact hall
    | some t => simp [getNewChangesLoop] at h
  | succ n ih =>
    intro pt acc tok evs cs tok2 evs2 h hall
    cases pt with
    | none =>
      simp only [getNewChangesLoop, Option.some.injEq, Prod.mk.injEq] at h
      obtain ⟨-, -, rfl⟩ := h
      exact hall
    | some t =>
      cases henv : env t with
      | none => simp [getNewChangesLoop, henv] at h
      | some page =>
        simp only [getNewChangesLoop, henv] at h
        cases hst : page.newStartPageToken with
        | some s =>
          rw [hst] at h
          refine ih _ _ _ _ _ _ _ h ?_
          intro e he
          rcases List.mem_append.mp he with h1 | h1
          · exact hall e h1
          · simp only [List.mem_singleton] at h1
            subst h1
            rfl
        | none =>
          rw [hst] at h
          exact ih _ _ _ _ _ _ _ h hall

theorem getNewChangesLoop_mono (env : FeedEnv) (hm : ServerMonotone env)
    (tok0 : Nat) :
    ∀ (fuel : Nat) (pt : Option Nat) (acc : List ChangeRec) (tok : Nat)
      (evs : List PollEv) (cs : List ChangeRec) (tok2 : Nat)
      (evs2 : List PollEv),
    getNewChangesLoop env fuel pt acc tok evs = some (cs, tok2, evs2) →
    tok0 ≤ tok → (∀ t, pt = some t → tok0 ≤ t) →
    tok0 ≤ tok2 := by
  intro fuel
  induction fuel with
  | zero =>
    intro pt acc tok evs cs tok2 evs2 h htok hpt
    cases pt with
    | none =>
      simp only [getNewChangesLoop, Option.some.injEq, Prod.mk.injEq] at h
      obtain ⟨-, rfl, -⟩ := h
      exact htok
    | some t => simp [getNewChangesLoop] at h
  | succ n ih =>
    intro pt acc tok evs cs tok2 evs2 h htok hpt
    cases pt with
    | none =>
      simp only [getNewChangesLoop, Option.some.injEq, Prod.mk.injEq] at h
      obtain ⟨-, rfl, -⟩ := h
      exact htok
    | some t =>
      have ht : tok0 ≤ t := hpt t rfl
      cases henv : env t with
      | none => simp [getNewChangesLoop, henv] at h
      | some page =>
        simp only [getNewChangesLoop, henv] at h
        have hnext : ∀ nt, page.nextPageToken = some nt → tok0 ≤ nt :=
          fun nt hnt => le_trans ht ((hm t page henv).2 nt hnt)
        cases hst : page.newStartPageToken with
        | some s =>
          rw [hst] at h
          exact ih _ _ _ _ _ _ _ h
            (le_trans ht ((hm t page henv).1 s hst)) hnext
        | none =>
          rw [hst] at h
          exact ih _ _ _ _ _ _ _ h htok hnext

theorem handleChangesEv_events (applies : ChangeRec → Bool) (tok : Nat) :
    ∀ cs : List ChangeRec, ∀ e ∈ handleChangesEv applies tok cs,
      e.isTokenUpdate = false ∧
        (e.isSave = true → e = PollEv.saveCheckpoint tok) := by
  intro cs
  induction cs with
  | nil => intro e he; simp [handleChangesEv] at he
  | cons c cs ih =>
    intro e he
    simp only [handleChangesEv, List.mem_cons, List.mem_append] at he
    rcases he with rfl | he | he
    · exact ⟨rfl, fun h => by simp [PollEv.isSave] at h⟩
    · cases hc : applies c with
      | true =>
        rw [hc] at he
        simp only [if_true, List.mem_singleton] at he
        subst he
        exact ⟨rfl, fun _ => rfl⟩
      | false =>
        rw [hc] at he
        simp at he
    · exact ih e he

theorem handleChangesEv_any_isApply (applies : ChangeRec → Bool) (tok : Nat) :
    ∀ cs : List ChangeRec,
      (handleChangesEv applies tok cs).any PollEv.isApply = !cs.isEmpty := by
  intro cs
  cases cs with
  | nil => rfl
  | cons c cs =>
    simp only [handleChangesEv, List.any_cons, List.isEmpty_cons]
    rfl

theorem isTokenUpdate_not_isApply (e : PollEv) (h : e.isTokenUpdate = true) :
    e.isApply = false := by
  cases e <;> simp_all [PollEv.isTokenUpdate, PollEv.isApply]

theorem isTokenUpdate_not_isSave (e : PollEv) (h : e.isTokenUpdate = true) :
    e.isSave = false := by
  cases e <;> simp_all [PollEv.isTokenUpdate, PollEv.isSave]

/-- All properties of one poller iteration needed by the claims: checkpoints
written in the iteration record the iteration's final token; the returned
detection flag is equivalent to "at least one change was applied"; the token
updates precede every change application; and for a monotone server the token
does not decrease. -/
theorem handleNewChangesEv_props (env : FeedEnv) (applies : ChangeRec → Bool)
    (fuel tok : Nat) (tr : List PollEv) (tok2 : Nat) (det : Bool)
    (h : handleNewChangesEv env applies fuel tok = some (tr, tok2, det)) :
    (∀ t, PollEv.saveCheckpoint t ∈ tr → t = tok2) ∧
    (det = true ↔ tr.any PollEv.isApply = true) ∧
    (∀ i j, i < tr.length → j < tr.length →
      (tr.getD i (PollEv.applyChange default)).isTokenUpdate = true →
      (tr.getD j (PollEv.applyChange default)).isApply = true → i < j) ∧
    (ServerMonotone env → tok ≤ tok2) := by
  unfold handleNewChangesEv at h
  cases hg : getNewChanges env fuel tok with
  | none => rw [hg] at h; exact absurd h (by simp)
  | some res =>
    obtain ⟨cs, tokf, evs⟩ := res
    rw [hg] at h
    simp only [Option.some.injEq, Prod.mk.injEq] at h
    obtain ⟨rfl, rfl, rfl⟩ := h
    have hevs : ∀ e ∈ evs, e.isTokenUpdate = true :=
      getNewChangesLoop_evs env fuel (some tok) [] tok [] cs tokf evs hg
        (by intro e he; simp at he)
    have hhc := handleChangesEv_events applies tokf cs
    refine ⟨?_, ?_, ?_, ?_⟩
    · intro t ht
      rcases List.mem_append.mp ht with h1 | h1
      · have := isTokenUpdate_not_isSave _ (hevs _ h1)
        simp [PollEv.isSave] at this
      · cases (hhc _ h1).2 rfl
        rfl
    · rw [List.any_append, handleChangesEv_any_isApply]
      have : evs.any PollEv.isApply = false := by
        rw [List.any_eq_false]
        intro e he
        simp [isTokenUpdate_not_isApply e (hevs e he)]
      rw [this]
      cases cs <;> simp
    · intro i j hi hj hitok hjap
      by_contra hij
      push_neg at hij
      -- positions ≥ evs.length come from the handleChangesEv part and are
      -- never token updates; positions < evs.length are token updates and
      -- never applies
      have hlen : (evs ++ handleChangesEv applies tokf cs).length =
          evs.length + (handleChangesEv applies tokf cs).length :=
        List.length_append _ _
      have hjlt : j < evs.length := by
        by_contra hge
        push_neg at hge
        have hige : evs.length ≤ i := le_trans hge hij
        have : (evs ++ handleChangesEv applies tokf cs).getD i
            (PollEv.applyChange default) ∈ handleChangesEv applies tokf cs := by
          rw [List.getD_eq_getElem _ _ hi,
            List.getElem_append_right hige]
          exact List.getElem_mem _
        have := (hhc _ this).1
        rw [hitok] at this
        exact Bool.true_eq_false.mp this
      have : (evs ++ handleChangesEv applies tokf cs).getD j
          (PollEv.applyChange default) ∈ evs := by
        rw [List.getD_eq_getElem _ _ hj, List.getElem_append_left hjlt]
        exact List.getElem_mem _
      have := isTokenUpdate_not_isApply _ (hevs _ this)
      rw [hjap] at this
      exact Bool.true_eq_false.mp this
    · intro hm
      exact getNewChangesLoop_mono env hm tok fuel (some tok) [] tok [] cs
        tokf evs hg le_rfl (by intro t ht; injection ht with ht; omega)

/-- Membership in `savedTokens`. -/
theorem mem_savedTokens (tr : List PollEv) (t : Nat) :
    t ∈ savedTokens tr ↔ PollEv.saveCheckpoint t ∈ tr := by
  unfold savedTokens
  rw [List.mem_filterMap]
  constructor
  · rintro ⟨e, he, hf⟩
    cases e <;> simp_all
  · intro h
    exact ⟨_, h, rfl⟩

theorem chain_le_const_append (a : Nat) :
    ∀ (l₁ l₂ : List Nat), (∀ x ∈ l₁, x = a) → List.Chain' (· ≤ ·) l₂ →
      (∀ y ∈ l₂, a ≤ y) → List.Chain' (· ≤ ·) (l₁ ++ l₂) := by
  intro l₁
  induction l₁ with
  | nil => intro l₂ _ h2 _; simpa using h2
  | cons x l₁ ih =>
    intro l₂ h1 h2 h3
    rw [List.cons_append]
    refine List.chain'_cons'.mpr
      ⟨?_, ih l₂ (fun y hy => h1 y (List.mem_cons_of_mem _ hy)) h2 h3⟩
    intro b hb
    have hx : x = a := h1 x (List.mem_cons_self _ _)
    have hbmem : b ∈ l₁ ++ l₂ := List.mem_of_mem_head? hb
    rcases List.mem_append.mp hbmem with h | h
    · -- b is in l₁, but then the head of l₁ ++ l₂ is the head of l₁
      rcases l₁ with _ | ⟨z, l₁⟩
      · simp at h
      · have hz : b = z := by
          simp only [List.cons_append, List.head?_cons, Option.mem_def,
            Option.some.injEq] at hb
          exact hb.symm
        subst hz
        rw [hx, h1 b (List.mem_cons_of_mem _ (List.mem_cons_self _ _))]
    · rw [hx]
      exact h3 b h


/-- Chained monotonicity of the checkpointed tokens across `n` poller
iterations, for a server with non-decreasing cursors. -/
theorem pollerRuns_chain (env : FeedEnv) (applies : ChangeRec → Bool)
    (fuel : Nat) (hm : ServerMonotone env) :
    ∀ (n tok : Nat) (tr : List PollEv) (tokN : Nat),
    pollerRuns env applies fuel n tok = some (tr, tokN) →
    List.Chain' (· ≤ ·) (savedTokens tr) ∧ tok ≤ tokN ∧
      ∀ t ∈ savedTokens tr, tok ≤ t := by
  intro n
  induction n with
  | zero =>
    intro tok tr tokN h
    simp only [pollerRuns, Option.some.injEq, Prod.mk.injEq] at h
    obtain ⟨rfl, rfl⟩ := h
    exact ⟨List.chain'_nil, le_rfl, by intro t ht; simp [savedTokens] at ht⟩
  | succ n ih =>
    intro tok tr tokN h
    unfold pollerRuns at h
    cases h1 : handleNewChangesEv env applies fuel tok with
    | none => rw [h1] at h; exact Option.noConfusion h
    | some res1 =>
      obtain ⟨tr1, tok1, det1⟩ := res1
      rw [h1] at h
      simp only [] at h
      cases h2 : pollerRuns env applies fuel n tok1 with
      | none => rw [h2] at h; exact Option.noConfusion h
      | some res2 =>
        obtain ⟨tr2, tok2⟩ := res2
        rw [h2] at h
        simp only [Option.some.injEq, Prod.mk.injEq] at h
        obtain ⟨rfl, rfl⟩ := h
        have hp := handleNewChangesEv_props env applies fuel tok tr1 tok1
          det1 h1
        have h1saved : ∀ t ∈ savedTokens tr1, t = tok1 := by
          intro t ht
          exact hp.1 t ((mem_savedTokens tr1 t).mp ht)
        have hle1 : tok ≤ tok1 := hp.2.2.2 hm
        obtain ⟨hc2, hle2, hall2⟩ := ih tok1 tr2 tok2 h2
        have hsplit : savedTokens (tr1 ++ tr2) =
            savedTokens tr1 ++ savedTokens tr2 := List.filterMap_append _ _ _
        refine ⟨?_, le_trans hle1 hle2, ?_⟩
        · rw [hsplit]
          exact chain_le_const_append tok1 _ _ h1saved hc2 hall2
        · intro t ht
          rw [hsplit] at ht
          rcases List.mem_append.mp ht with h | h
          · rw [h1saved t h]; exact hle1
          · exact le_trans hle1 (hall2 t h)

/-! ### Claim C1 -/

/-- A concrete change record used in counterexample states. -/
def cexFile : FileRecord :=
  { id := "A", name := "a.txt", mimeType := "text/plain",
    md5Checksum := some "h1", size := some 3, modifiedTime := "2024-01-01",
    parents := some ["root"], trashed := false }

def cexChange : ChangeRec :=
  { removed := false, fileId := "A", file := some cexFile }

/-- A feed environment serving one page at token 5 (with one change and new
start token 6) and an empty page at token 6. -/
def cexFeedEnv : FeedEnv := fun t =>
  if t = 5 then
    some { changes := [cexChange], nextPageToken := none,
           newStartPageToken := some 6 }
  else if t = 6 then
    some { changes := [], nextPageToken := none, newStartPageToken := some 6 }
  else none

/-- **C1, counterexample.**  In the iteration produced by `cexFeedEnv` from
token 5, the in-memory `changeToken` is advanced to the new start token 6
*during the page fetch*, before the fetched change is applied and before any
checkpoint is written — refuting the claim that the token is advanced only
after all fetched changes have been applied and the checkpoint written. -/
theorem C1_counterexample :
    handleNewChangesEv cexFeedEnv (fun _ => true) 10 5 =
      some ([PollEv.tokenUpdate 6, PollEv.applyChange cexChange,
        PollEv.saveCheckpoint 6], 6, true) ∧
    ¬ tokenAdvancesLast [PollEv.tokenUpdate 6, PollEv.applyChange cexChange,
        PollEv.saveCheckpoint 6] := by
  constructor
  · rfl
  · decide

theorem cexFeedEnv_monotone : ServerMonotone cexFeedEnv := by
  intro t page h
  unfold cexFeedEnv at h
  by_cases h5 : t = 5
  · subst h5
    simp only [if_pos rfl] at h
    cases h
    exact ⟨by intro s hs; cases hs; omega, by intro nt hnt; cases hnt⟩
  · rw [if_neg h5] at h
    by_cases h6 : t = 6
    · subst h6
      simp only [if_pos rfl] at h
      cases h
      exact ⟨by intro s hs; cases hs; omega, by intro nt hnt; cases hnt⟩
    · rw [if_neg h6] at h
      cases h

/-- **C1, amended.**  What actually holds of the poller: (i) within every
successful iteration every `changeToken` update *precedes* every change
application (the token advances during the fetch, not after the applies);
(ii) every checkpoint written during an iteration records the iteration's
final token; and (iii) provided the server serves non-decreasing cursors,
the token never decreases across iterations and the `ChangeToken` values
observed across successive checkpoints are non-decreasing (the surviving
half of the original claim, P3). -/
theorem C1_amended (env : FeedEnv) (applies : ChangeRec → Bool)
    (fuel n tok : Nat) (tr : List PollEv) (tokN : Nat)
    (hrun : pollerRuns env applies fuel n tok = some (tr, tokN))
    (hm : ServerMonotone env) :
    List.Chain' (· ≤ ·) (savedTokens tr) ∧ tok ≤ tokN ∧
    (∀ tok0 tr1 tok1 det,
      handleNewChangesEv env applies fuel tok0 = some (tr1, tok1, det) →
      (∀ i j, i < tr1.length → j < tr1.length →
        (tr1.getD i (PollEv.applyChange default)).isTokenUpdate = true →
        (tr1.getD j (PollEv.applyChange default)).isApply = true → i < j) ∧
      (∀ t, PollEv.saveCheckpoint t ∈ tr1 → t = tok1)) := by
  refine ⟨?_, ?_, ?_⟩
  · exact (pollerRuns_chain env applies fuel hm n tok tr tokN hrun).1
  · exact (pollerRuns_chain env applies fuel hm n tok tr tokN hrun).2.1
  · intro tok0 tr1 tok1 det h1
    have hp := handleNewChangesEv_props env applies fuel tok0 tr1 tok1 det h1
    exact ⟨hp.2.2.1, hp.1⟩

/-- Witness for `C1_amended` at the concrete feed `cexFeedEnv`: two poller
iterations from token 5 checkpoint the non-decreasing token sequence `[6]`
and end at token 6. -/
theorem C1_amended_witness :
    List.Chain' (· ≤ ·) (savedTokens [PollEv.tokenUpdate 6,
      PollEv.applyChange cexChange, PollEv.saveCheckpoint 6,
      PollEv.tokenUpdate 6]) ∧ (5 : Nat) ≤ 6 := by
  have h := C1_amended cexFeedEnv (fun _ => true) 10 2 5
    [PollEv.tokenUpdate 6, PollEv.applyChange cexChange,
      PollEv.saveCheckpoint 6, PollEv.tokenUpdate 6] 6 rfl cexFeedEnv_monotone
  exact ⟨h.1, h.2.1⟩

/-! ### Claim C5 -/

/-- **C5.**  On every steady-state iteration of the remote change poller:
the interval starts at the initial 8 seconds (8000 ms); after iteration `i`
the interval equals the 2-second minimum if and only if at least one change
was applied in that iteration (`bs.getD i false` is the flag
`handleNewChanges` returned, and by the third conjunct that flag is `true`
exactly when the iteration's trace contains a change application); and
otherwise the interval is multiplied by 1.5 capped at the 30-second
maximum. -/
theorem watchChanges_adaptive_interval (bs : List Bool) (i : Nat)
    (hi : i < bs.length) :
    initialDelay = 8000 ∧
    (pollTrace initialDelay bs).getD 0 0 = 8000 ∧
    (∀ env applies fuel tok tr tok2 det,
      handleNewChangesEv env applies fuel tok = some (tr, tok2, det) →
      (det = true ↔ tr.any PollEv.isApply = true)) ∧
    ((pollTrace initialDelay bs).getD (i + 1) 0 = minDelay ↔
      bs.getD i false = true) ∧
    (bs.getD i false = false →
      (pollTrace initialDelay bs).getD (i + 1) 0 =
        min ((pollTrace initialDelay bs).getD i 0 * backoffMultiplier)
          maxDelay) := by
  have h8 : minDelay ≤ initialDelay := by unfold minDelay initialDelay; norm_num
  refine ⟨rfl, pollTrace_getD_zero _ _, ?_, ?_, ?_⟩
  · intro env applies fuel tok tr tok2 det h
    exact (handleNewChangesEv_props env applies fuel tok tr tok2 det h).2.1
  · rw [pollTrace_getD_succ _ _ i hi]
    cases hb : bs.getD i false with
    | true => simp [pollStep]
    | false =>
      simp only [Bool.false_eq_true, iff_false]
      intro habs
      have hge : minDelay ≤ (pollTrace initialDelay bs).getD i 0 :=
        pollTrace_ge_min initialDelay bs h8 i (by omega)
      have hlt : minDelay <
          pollStep false true false ((pollTrace initialDelay bs).getD i 0) := by
        show minDelay <
          min ((pollTrace initialDelay bs).getD i 0 * backoffMultiplier)
            maxDelay
        refine lt_min ?_ ?_
        · unfold minDelay backoffMultiplier at *
          nlinarith
        · unfold minDelay maxDelay
          norm_num
      rw [habs] at hlt
      exact lt_irrefl _ hlt
  · intro hb
    rw [pollTrace_getD_succ _ _ i hi, hb]
    rfl

/-- Witness for `watchChanges_adaptive_interval`: with detection flags
`[true, false]`, iteration 0 resets the interval to 2000 ms and iteration 1
backs off to `min (2000 · 1.5) 30000` ms. -/
theorem watchChanges_adaptive_interval_witness :
    (pollTrace initialDelay [true, false]).getD 1 0 = minDelay ∧
    (pollTrace initialDelay [true, false]).getD 2 0 =
      min (minDelay * backoffMultiplier) maxDelay := by
  have h0 := watchChanges_adaptive_interval [true, false] 0 (by decide)
  have h1 := watchChanges_adaptive_interval [true, false] 1 (by decide)
  have e0 : (pollTrace initialDelay [true, false]).getD 1 0 = minDelay :=
    h0.2.2.2.1.mpr rfl
  refine ⟨e0, ?_⟩
  have e1 := h1.2.2.2.2 rfl
  rw [e1, e0]

/-! ### Claim C8 -/

/-- Counterexample records for C8: identical except the parent lists are
permutations of each other. -/
def c8Old : FileRecord :=
  { id := "X", name := "f", mimeType := "text/plain",
    md5Checksum := some "h", size := some 1, modifiedTime := "2024-05-01",
    parents := some ["A", "B"], trashed := false }

def c8New : FileRecord := { c8Old with parents := some ["B", "A"] }

/-- **C8, counterexample.**  `c8Old` and `c8New` have equal name, equal
parent *sets*, and a non-greater new `modifiedTime`, yet `noChange` returns
`false` — because the source compares parents with `deepEqual` on arrays,
which is order-sensitive.  So "the no-change predicate holds iff … equal
parent sets …" is refuted. -/
theorem C8_counterexample :
    c8Old.name = c8New.name ∧
    sameParentSet c8Old.parents c8New.parents = true ∧
    strGt c8New.modifiedTime c8Old.modifiedTime = false ∧
    noChange c8Old c8New = false := by
  refine ⟨rfl, by decide, by decide, by decide⟩

/-- **C8, amended.**  The no-change predicate holds if and only if the two
records have equal name, equal parent *lists* (element-wise, order-sensitive
deep equality), and the new `modifiedTime` is not strictly greater under
string ordering. -/
theorem noChange_iff (oldInfo newInfo : FileRecord) :
    noChange oldInfo newInfo = true ↔
      oldInfo.name = newInfo.name ∧ oldInfo.parents = newInfo.parents ∧
        strGt newInfo.modifiedTime oldInfo.modifiedTime = false := by
  unfold noChange
  by_cases h1 : strGt newInfo.modifiedTime oldInfo.modifiedTime
  · simp [h1]
  · by_cases h2 : oldInfo.name = newInfo.name
    · by_cases h3 : oldInfo.parents = newInfo.parents
      · simp [h1, h2, h3]
      · simp [h1, h2, h3]
    · simp [h1, h2]

/-! ## The synchronization state model

The mutable fields of the `Sync` object that the claims concern, the local
filesystem, and an event trace.  Maps are total functions into `Option`;
`upd` is pointwise update.  The `logChange`/`lastChanges` notification
bookkeeping and timing fields are not modelled (no claim concerns them). -/

/-- An entry of the modelled local filesystem: a directory, or a file whose
content is represented by its md5 digest (the only observation the engine
makes of file contents). -/
inductive DiskEntry where
  | dir
  | file (md5 : String)
deriving DecidableEq, Repr

/-- Filesystem-related calls, recorded in execution order. -/
inductive FsEv where
  /-- `this.watcher.ignore(path)`. -/
  | ignoreEv (path : String)
  /-- `mkdirp(path)`. -/
  | mkdirEv (path : String)
  /-- `fs.rename(src, dst)`. -/
  | renameEv (src dst : String)
  /-- `fs.remove(path)`. -/
  | removeEv (path : String)
  /-- `fs.copy(src, dst)`. -/
  | copyEv (src dst : String)
  /-- `fs.createWriteStream(tmpFile)` creating the temporary file. -/
  | createTmpEv (path : String)
  /-- `drive.files.get({fileId, alt: "media"})` — the content download. -/
  | downloadEv (id : String)
deriving DecidableEq, Repr

/-- Errors propagated by the modelled operations.  `fuelOut` is the
modelling artifact for non-termination of the recursive walks (a stack
overflow in the JavaScript original). -/
inductive JsErr where
  | http404
  | connReset
  | typeErr
  | fsErr
  | fuelOut
deriving DecidableEq, Repr

/-- The state of one `Sync` object: `fileInfo` (Metadata Cache), `paths`
(Path Index, local path → id), `parentInfoCache` (Parent-info Side Cache),
`onLocalDrive` (Materialized Set, keyed by base64-encoded path), the local
`disk`, the event trace, and the configuration `rootId` / `folder`. -/
structure SyncState where
  fileInfo : String → Option FileRecord
  paths : String → Option String
  parentInfoCache : String → Option FileRecord
  onLocalDrive : String → Bool
  disk : String → Option DiskEntry
  events : List FsEv
  rootId : String
  folder : String

/-- The remote service: the (deterministic) outcome of a metadata request
for an id, and of a content download for an id (the served content
represented by its md5). -/
structure RemoteEnv where
  fetch : String → Except JsErr FileRecord
  content : String → Except JsErr String

/-- Result of a stateful operation: normal return, or a thrown error — in
both cases with the state at that moment (JavaScript exceptions do not roll
back mutations). -/
inductive MRes (α : Type) where
  | mok (v : α) (s : SyncState)
  | merr (e : JsErr) (s : SyncState)

def MRes.isOk {α : Type} : MRes α → Bool
  | .mok _ _ => true
  | .merr _ _ => false

def MRes.state {α : Type} : MRes α → SyncState
  | .mok _ s => s
  | .merr _ s => s

/-- Pointwise map update. -/
def upd {β : Type} (m : String → Option β) (k : String) (v : Option β) :
    String → Option β :=
  fun x => if x = k then v else m x

/-- Append one event to the trace. -/
def logEv (e : FsEv) (s : SyncState) : SyncState :=
  { s with events := s.events ++ [e] }

/-- `path.join(a, b)`. -/
def joinPath (a b : String) : String := a ++ "/" ++ b

/-- `path.dirname(p)` (for the slash-separated absolute paths the engine
uses): everything before the last slash. -/
def dirname (p : String) : String :=
  String.mk (((p.data.reverse.dropWhile fun c => c ≠ '/').drop 1).reverse)

/-- Does the character list start with the pattern? -/
def listStartsWith : List Char → List Char → Bool
  | [], _ => true
  | _ :: _, [] => false
  | p :: ps, c :: cs => p = c && listStartsWith ps cs

/-- Does the character list contain the pattern as a contiguous
subsequence? -/
def listContainsSeq (pat : List Char) : List Char → Bool
  | [] => pat.isEmpty
  | c :: cs => listStartsWith pat (c :: cs) || listContainsSeq pat cs

/-- JavaScript `s.includes(pat)`. -/
def strContains (s pat : String) : Bool := listContainsSeq pat.data s.data

/-- `isFolder(fileInfo)`. -/
def isFolder (info : FileRecord) : Bool := strContains info.mimeType "folder"

/-- `shouldIgnoreFile(fileInfo)`: the root itself is ignored; folders are
not; other records are ignored iff they have no `size` field. -/
def shouldIgnoreFile (s : SyncState) (info : FileRecord) : Bool :=
  if info.id = s.rootId then true
  else if isFolder info then false
  else info.size.isNone

/-- `tryTwice(fn)`: retry once, only on a connection reset. -/
def tryTwice {α : Type} (f : Unit → Except JsErr α) : Except JsErr α :=
  match f () with
  | .ok v => .ok v
  | .error e => if e = .connReset then f () else .error e

/-- `_needsParentFetch(parentId)`. -/
def needsParentFetch (s : SyncState) (p : String) : Bool :=
  (s.parentInfoCache p).isNone && (s.fileInfo p).isNone

/-- Insert a record into the Parent-info Side Cache. -/
def picSet (p : String) (r : FileRecord) (s : SyncState) : SyncState :=
  { s with parentInfoCache := upd s.parentInfoCache p (some r) }

/-- `for (let parent of info.parents) this.parentInfoCache.delete(parent)`. -/
def picDeleteAll : List String → SyncState → SyncState
  | [], s => s
  | p :: ps, s =>
    picDeleteAll ps { s with parentInfoCache := upd s.parentInfoCache p none }

/-- `batchResults.forEach((parentInfo, parentId) => { if (parentInfo)
this.parentInfoCache.set(parentId, parentInfo); })`. -/
def cacheBatchResults : List (String × Option FileRecord) → SyncState →
    SyncState
  | [], s => s
  | (p, some r) :: rest, s => cacheBatchResults rest (picSet p r s)
  | (_, none) :: rest, s => cacheBatchResults rest s

/-- `for (let path of ps) this.paths[path] = id`. -/
def setPathsAll : List String → String → (String → Option String) →
    String → Option String
  | [], _, m => m
  | p :: ps, id, m => setPathsAll ps id (upd m p (some id))

/-- Lookup in the assoc-list model of the `Map` returned by
`getFileInfoBatch`. -/
def lookupEntry : List (String × Option FileRecord) → String →
    Option (Option FileRecord)
  | [], _ => none
  | (k, v) :: rest, id => if k = id then some v else lookupEntry rest id

/-! ## The metadata fetch / path materialization family
(`getPaths` lines 893–947, `getFileInfo` 1092–1120, `getFileInfoBatch`
1039–1086, `storeFileInfo` 1134–1145, `computePaths(info)` 1147–1151)

These methods are mutually recursive through parent resolution: fetching a
record stores it, storing recomputes its paths, and computing paths resolves
parents (possibly fetching them).  The recursion is fuel-indexed; exhausting
the fuel raises `JsErr.fuelOut` (the stack overflow a cyclic parent graph
would produce in the original). -/

mutual

/-- `async getPaths(fileInfo)`: `[]` for `null`; `[this.folder]` for the
root; `[]` for a parentless record; otherwise batch-prefetch the uncached
parents, then resolve each parent (side cache → metadata cache → individual
fetch) and emit `join(parentPath, name)` for every path of every parent. -/
def getPaths (fuel : Nat) (env : RemoteEnv) (info? : Option FileRecord)
    (s : SyncState) : MRes (List String) :=
  match fuel, info? with
  | 0, _ => .merr .fuelOut s
  | _ + 1, none => .mok [] s
  | fuel + 1, some info =>
    if info.id = s.rootId then .mok [s.folder] s
    else
      match info.parents with
      | none => .mok [] s
      | some parents =>
        let parentsToFetch := parents.filter fun p => needsParentFetch s p
        if parentsToFetch.isEmpty then
          getPathsParentsLoop fuel env info.name parents s
        else
          match getFileInfoBatch fuel env parentsToFetch s with
          | .merr e s1 => .merr e s1
          | .mok results s1 =>
            getPathsParentsLoop fuel env info.name parents
              (cacheBatchResults results s1)
termination_by structural fuel

/-- The `for (let parent of fileInfo.parents)` loop of `getPaths`. -/
def getPathsParentsLoop (fuel : Nat) (env : RemoteEnv) (name : String)
    (parents : List String) (s : SyncState) : MRes (List String) :=
  match fuel, parents with
  | _, [] => .mok [] s
  | 0, _ :: _ => .merr .fuelOut s
  | fuel + 1, p :: ps =>
    match resolveParentInfo fuel env p s with
    | .merr e s1 => .merr e s1
    | .mok parentInfo? s1 =>
      match getPaths fuel env parentInfo? s1 with
      | .merr e s2 => .merr e s2
      | .mok parentPaths s2 =>
        match getPathsParentsLoop fuel env name ps s2 with
        | .merr e s3 => .merr e s3
        | .mok rest s3 =>
          .mok ((parentPaths.map fun q => joinPath q name) ++ rest) s3
termination_by structural fuel

/-- One parent resolution inside the `getPaths` loop: side cache first,
then the metadata cache (memoizing into the side cache), then an individual
`getFileInfo` fetch (memoized when it returns a record). -/
def resolveParentInfo (fuel : Nat) (env : RemoteEnv) (p : String)
    (s : SyncState) : MRes (Option FileRecord) :=
  match fuel with
  | 0 => .merr .fuelOut s
  | fuel + 1 =>
    match s.parentInfoCache p with
    | some r => .mok (some r) s
    | none =>
      match s.fileInfo p with
      | some r => .mok (some r) (picSet p r s)
      | none =>
        match getFileInfo fuel env p s with
        | .merr e s1 => .merr e s1
        | .mok (some r) s1 => .mok (some r) (picSet p r s1)
        | .mok none s1 => .mok none s1
termination_by structural fuel

/-- `async getFileInfoBatch(fileIds)`: filter out cached ids; if none
remain, answer from the cache; otherwise fetch the missing ids (each
individually guarded, a failing fetch contributing no entry), then add
still-missing cached ids. -/
def getFileInfoBatch (fuel : Nat) (env : RemoteEnv) (ids : List String)
    (s : SyncState) : MRes (List (String × Option FileRecord)) :=
  match fuel with
  | 0 => .merr .fuelOut s
  | fuel + 1 =>
    let idsToFetch := ids.filter fun id => (s.fileInfo id).isNone
    if idsToFetch.isEmpty then
      .mok (ids.map fun id => (id, s.fileInfo id)) s
    else
      match batchFetchLoop fuel env idsToFetch s with
      | (entries, s1) =>
        .mok (entries ++
          ((ids.filter fun id =>
              (lookupEntry entries id).isNone && (s1.fileInfo id).isSome).map
            fun id => (id, s1.fileInfo id))) s1
termination_by structural fuel

/-- The guarded parallel fetches of `getFileInfoBatch` (modelled
sequentially; the environment is deterministic).  A fetch returning a record
or a not-found `null` yields an entry; a fetch throwing anything else is
caught, logged and skipped (`success: false` — no entry). -/
def batchFetchLoop (fuel : Nat) (env : RemoteEnv) (ids : List String)
    (s : SyncState) : List (String × Option FileRecord) × SyncState :=
  match fuel, ids with
  | _, [] => ([], s)
  | 0, _ :: _ => ([], s)
  | fuel + 1, id :: rest =>
    match getFileInfo fuel env id s with
    | .mok v s1 =>
      match batchFetchLoop fuel env rest s1 with
      | (es, s2) => ((id, v) :: es, s2)
    | .merr _ s1 => batchFetchLoop fuel env rest s1
termination_by structural fuel

/-- `async getFileInfo(fileId)` (without `forceUpdate`, as called
everywhere in the modelled paths): answer from the cache, else fetch with
one retry (`tryTwice`), store the result, and return it; a 404 yields
`null`; other errors propagate. -/
def getFileInfo (fuel : Nat) (env : RemoteEnv) (fileId : String)
    (s : SyncState) : MRes (Option FileRecord) :=
  match fuel with
  | 0 => .merr .fuelOut s
  | fuel + 1 =>
    match s.fileInfo fileId with
    | some r => .mok (some r) s
    | none =>
      match tryTwice fun _ => env.fetch fileId with
      | .ok r =>
        match storeFileInfo fuel env r s with
        | .mok r2 s1 => .mok (some r2) s1
        | .merr e s1 => .merr e s1
      | .error e => if e = .http404 then .mok none s else .merr e s
termination_by structural fuel

/-- `async storeFileInfo(info)`: recompute and index the record's paths,
invalidate the side-cache entries of the record's parents, then insert the
record into the metadata cache. -/
def storeFileInfo (fuel : Nat) (env : RemoteEnv) (info : FileRecord)
    (s : SyncState) : MRes FileRecord :=
  match fuel with
  | 0 => .merr .fuelOut s
  | fuel + 1 =>
    match computePathsOf fuel env info s with
    | .merr e s1 => .merr e s1
    | .mok _ s1 =>
      let s2 := picDeleteAll (info.parents.getD []) s1
      .mok info { s2 with fileInfo := upd s2.fileInfo info.id (some info) }
termination_by structural fuel

/-- `computePaths(info)` for a given record (the only form the reconciler
invokes): index every materialized path of the record. -/
def computePathsOf (fuel : Nat) (env : RemoteEnv) (info : FileRecord)
    (s : SyncState) : MRes Unit :=
  match fuel with
  | 0 => .merr .fuelOut s
  | fuel + 1 =>
    match getPaths fuel env (some info) s with
    | .merr e s1 => .merr e s1
    | .mok ps s1 => .mok () { s1 with paths := setPathsAll ps info.id s1.paths }
termination_by structural fuel

end


/-! ## Materialized Set keying

`onLocalDrive` is keyed by `Buffer.from(path).toString('base64')` ("base64
encoding because of nedb"). -/

/-- UTF-8 bytes of one character. -/
def utf8Bytes (c : Char) : List Nat :=
  let n := c.val.toNat
  if n < 128 then [n]
  else if n < 2048 then [192 + n / 64, 128 + n % 64]
  else if n < 65536 then
    [224 + n / 4096, 128 + (n / 64) % 64, 128 + n % 64]
  else
    [240 + n / 262144, 128 + (n / 4096) % 64, 128 + (n / 64) % 64,
      128 + n % 64]

/-- The base64 alphabet. -/
def b64Char (n : Nat) : Char :=
  "ABCDEFGHIJKLMNOPQRSTUVWXYZabcdefghijklmnopqrstuvwxyz0123456789+/".data.getD
    n 'A'

/-- Standard base64 with padding over a byte list. -/
def base64Bytes : List Nat → List Char
  | [] => []
  | [a] => [b64Char (a / 4), b64Char (a % 4 * 16), '=', '=']
  | [a, b] =>
    [b64Char (a / 4), b64Char (a % 4 * 16 + b / 16), b64Char (b % 16 * 4), '=']
  | a :: b :: c :: rest =>
    b64Char (a / 4) :: b64Char (a % 4 * 16 + b / 16) ::
      b64Char (b % 16 * 4 + c / 64) :: b64Char (c % 64) :: base64Bytes rest

/-- `Buffer.from(path).toString('base64')`. -/
def b64 (p : String) : String :=
  String.mk (base64Bytes (p.data.flatMap utf8Bytes))

/-- `registerLocalFile(path)` (lines 117–121): mark the base64-encoded path
in the Materialized Set. -/
def registerLocalFile (p : String) (s : SyncState) : SyncState :=
  { s with onLocalDrive := fun k => if k = b64 p then true else s.onLocalDrive k }

/-- `locallyRegistered(path)` (lines 112–115). -/
def locallyRegistered (p : String) (s : SyncState) : Bool :=
  s.onLocalDrive (b64 p)

/-! ## Reconciler filesystem operations -/

/-- `mkdirp(p)`: create the directory (no-op when it exists; an error when a
file occupies the path).  Ancestor creation is not modelled (the filesystem
model is entry-level). -/
def mkdirp (p : String) (s : SyncState) : MRes Unit :=
  let s1 := logEv (.mkdirEv p) s
  match s1.disk p with
  | some (.file _) => .merr .fsErr s1
  | some .dir => .mok () s1
  | none => .mok () { s1 with disk := upd s1.disk p (some .dir) }

/-- `fs.rename(src, dst)`: move the entry; an error when the source is
absent. -/
def fsRename (src dst : String) (s : SyncState) : MRes Unit :=
  let s1 := logEv (.renameEv src dst) s
  match s1.disk src with
  | none => .merr .fsErr s1
  | some e =>
    .mok () { s1 with disk := upd (upd s1.disk src none) dst (some e) }

/-- `fs.remove(p)`: delete the entry; succeeds also when absent. -/
def fsRemove (p : String) (s : SyncState) : SyncState :=
  let s1 := logEv (.removeEv p) s
  { s1 with disk := upd s1.disk p none }

/-- `fs.copy(src, dst)`: duplicate the entry; an error when the source is
absent. -/
def fsCopy (src dst : String) (s : SyncState) : MRes Unit :=
  let s1 := logEv (.copyEv src dst) s
  match s1.disk src with
  | none => .merr .fsErr s1
  | some e => .mok () { s1 with disk := upd s1.disk dst (some e) }

/-- The deletion loop of `removeFileLocally` (lines 754–764): for each
path, check existence (`fs.access`), and if present `ignore` it, remove it,
and record that something was removed; missing paths are skipped. -/
def removeLoop : List String → Bool → SyncState → Bool × SyncState
  | [], removed, s => (removed, s)
  | p :: rest, removed, s =>
    match s.disk p with
    | none => removeLoop rest removed s
    | some _ => removeLoop rest true (fsRemove p (logEv (.ignoreEv p) s))

/-- `async removeFileLocally(fileId)` (lines 738–771): unknown ids are a
no-op returning `false`; otherwise compute the record's paths, drop the
record from the metadata cache and the paths from the Path Index, and delete
each path that exists on disk (each deletion preceded by an `ignore`),
returning whether at least one file was actually removed. -/
def removeFileLocally (fuel : Nat) (env : RemoteEnv) (fileId : String)
    (s : SyncState) : MRes Bool :=
  match s.fileInfo fileId with
  | none => .mok false s
  | some info =>
    match getPaths fuel env (some info) s with
    | .merr e s1 => .merr e s1
    | .mok ps s1 =>
      let s2 := { s1 with fileInfo := upd s1.fileInfo fileId none }
      let s3 := { s2 with
        paths := fun x => if x ∈ ps then none else s2.paths x }
      if ps.isEmpty then .mok false s3
      else
        match removeLoop ps false s3 with
        | (removed, s4) => .mok removed s4

/-- The folder branch of `downloadFile`: `ignore` and `mkdirp` every path. -/
def mkdirAllLoop : List String → SyncState → MRes Unit
  | [], s => .mok () s
  | p :: rest, s =>
    match mkdirp p (logEv (.ignoreEv p) s) with
    | .merr e s1 => .merr e s1
    | .mok _ s1 => mkdirAllLoop rest s1

/-- The alias-copy loop at the end of `downloadFile` (lines 1251–1255):
`ignore` each remaining path and copy the canonical file onto it. -/
def copyAliasLoop (canonical : String) : List String → SyncState → MRes Unit
  | [], s => .mok () s
  | p :: rest, s =>
    match fsCopy canonical p (logEv (.ignoreEv p) s) with
    | .merr e s1 => .merr e s1
    | .mok _ s1 => copyAliasLoop canonical rest s1

/-- One download attempt (the promise inside `tryTwice`, lines 1231–1245):
`ignore` the destination, request the content; on success write the
temporary file and atomically rename it onto the destination; on error
remove the temporary file before propagating. -/
def downloadAttempt (env : RemoteEnv) (id tmp savePath : String)
    (s : SyncState) : MRes Unit :=
  let s1 := logEv (.downloadEv id) (logEv (.ignoreEv savePath) s)
  match env.content id with
  | .ok h =>
    fsRename tmp savePath { s1 with disk := upd s1.disk tmp (some (.file h)) }
  | .error e => .merr e (fsRemove tmp s1)

/-- `async downloadFile(fileInfo)` (lines 1186–1258).  Ignorable records
and records with no materialized path are skipped (`false`).  Folders are
materialized with `mkdirp` at every path.  Otherwise the first path is the
canonical destination: ensure its directory, skip the download when the
canonical file already exists with the record's md5, else create the
temporary file `"." + name + ".tmp"` in the root folder, download with one
retry on connection reset, and finally copy the canonical file to every
remaining path. -/
def downloadFile (fuel : Nat) (env : RemoteEnv) (info : FileRecord)
    (s : SyncState) : MRes Bool :=
  if shouldIgnoreFile s info then .mok false s
  else
    match getPaths fuel env (some info) s with
    | .merr e s1 => .merr e s1
    | .mok savePaths s1 =>
      match savePaths with
      | [] => .mok false s1
      | savePath :: rest =>
        if isFolder info then
          match mkdirAllLoop (savePath :: rest) s1 with
          | .merr e s2 => .merr e s2
          | .mok _ s2 => .mok true s2
        else
          match mkdirp (dirname savePath) s1 with
          | .merr e s2 => .merr e s2
          | .mok _ s2 =>
            let alreadyDownloaded :=
              match s2.disk savePath, info.md5Checksum with
              | some (.file h), some c => h == c
              | _, _ => false
            if alreadyDownloaded then
              match copyAliasLoop savePath rest s2 with
              | .merr e s3 => .merr e s3
              | .mok _ s3 => .mok true s3
            else
              let tmp := joinPath s2.folder ("." ++ info.name ++ ".tmp")
              let s3 := logEv (.createTmpEv tmp)
                { s2 with disk := upd s2.disk tmp (some (.file "")) }
              let afterDl : MRes Unit :=
                match downloadAttempt env info.id tmp savePath s3 with
                | .mok v s4 => MRes.mok v s4
                | .merr e s4 =>
                  if e = .connReset then downloadAttempt env info.id tmp savePath s4
                  else .merr e s4
              match afterDl with
              | .merr e s4 => .merr e s4
              | .mok _ s4 =>
                match copyAliasLoop savePath rest s4 with
                | .merr e s5 => .merr e s5
                | .mok _ s5 => .mok true s5

/-- `async addFileLocally(fileInfo)` (lines 487–495): store the record,
then download its content; report whether anything was written. -/
def addFileLocally (fuel : Nat) (env : RemoteEnv) (info : FileRecord)
    (s : SyncState) : MRes Bool :=
  match storeFileInfo fuel env info s with
  | .merr e s1 => .merr e s1
  | .mok _ s1 => downloadFile fuel env info s1


/-! ## Path delta (`changePaths`, lines 960–1005) -/

/-- The `mkdirp` pre-pass (lines 985–987): ensure the parent directory of
every added path before any rename. -/
def cpMkdirLoop : List String → SyncState → MRes Unit
  | [], s => .mok () s
  | a :: rest, s =>
    match mkdirp (dirname a) s with
    | .merr e s1 => .merr e s1
    | .mok _ s1 => cpMkdirLoop rest s1

/-- The pairing loop (lines 989–999), structurally equal to the index loop
of the source: while added paths remain, `ignore` both sides of the pair and
rename removed→added; afterwards `ignore` and delete each surplus removed
path. -/
def cpPairLoop : List String → List String → SyncState → MRes Unit
  | [], _, s => .mok () s
  | r :: rs, [], s => cpPairLoop rs [] (fsRemove r (logEv (.ignoreEv r) s))
  | r :: rs, a :: as, s =>
    match fsRename r a (logEv (.ignoreEv a) (logEv (.ignoreEv r) s)) with
    | .merr e s1 => .merr e s1
    | .mok _ s1 => cpPairLoop rs as s1

/-- The surplus-added copy loop (lines 1001–1004): copy `newPaths[0]` onto
each added path beyond the removed count, each preceded by an `ignore`. -/
def cpCopyLoop (src : String) : List String → SyncState → MRes Unit
  | [], s => .mok () s
  | a :: rest, s =>
    match fsCopy src a (logEv (.ignoreEv a) s) with
    | .merr e s1 => .merr e s1
    | .mok _ s1 => cpCopyLoop src rest s1

/-- `async changePaths(oldPaths, newPaths)`: no-op for an empty old list;
otherwise `removed = old ∖ new` and `added = new ∖ old` (kept in order),
parent directories of added paths are created first, removed paths are
renamed onto added paths by position, surplus removed paths are deleted, and
surplus added paths are filled by copying from `newPaths[0]`. -/
def changePaths (oldPaths newPaths : List String) (s : SyncState) :
    MRes Unit :=
  if oldPaths.isEmpty then .mok () s
  else
    let removedPaths := oldPaths.filter fun p => !(newPaths.contains p)
    let addedPaths := newPaths.filter fun p => !(oldPaths.contains p)
    match cpMkdirLoop addedPaths s with
    | .merr e s1 => .merr e s1
    | .mok _ s1 =>
      match cpPairLoop removedPaths addedPaths s1 with
      | .merr e s2 => .merr e s2
      | .mok _ s2 =>
        cpCopyLoop (newPaths.headD "") (addedPaths.drop removedPaths.length)
          s2

/-! ## The remote-change reconciler (`handleChange`, lines 380–450) -/

/-- Insert a string into an ascending list. -/
def insertSorted (x : String) : List String → List String
  | [] => [x]
  | y :: ys => if strLtB y x then y :: insertSorted x ys else x :: y :: ys

/-- JavaScript `Array.prototype.sort()` on string arrays (ascending
code-unit order), as insertion sort. -/
def sortPaths : List String → List String
  | [] => []
  | x :: xs => insertSorted x (sortPaths xs)

/-- `async handleChange(change)`.  Removed or trashed → `removeFileLocally`
(accessing `.trashed` of an absent `file` is a TypeError).  Unknown id →
`addFileLocally`.  Otherwise store the new record; ignore when `noChange`;
compute old and new paths; ignore when both are empty; on a checksum change
remove-then-re-add; when there were no old paths, add; ignore worthless
records and unchanged sorted path sets; otherwise apply the path delta.
(`logChange` only updates the notification counters, which are not
modelled; the returned boolean is the one the caller awaits.) -/
def handleChange (fuel : Nat) (env : RemoteEnv) (change : ChangeRec)
    (s : SyncState) : MRes Bool :=
  if change.removed then removeFileLocally fuel env change.fileId s
  else
    match change.file with
    | none => .merr .typeErr s
    | some f =>
      if f.trashed then removeFileLocally fuel env change.fileId s
      else
        match s.fileInfo change.fileId with
        | none => addFileLocally fuel env f s
        | some oldInfo =>
          match storeFileInfo fuel env f s with
          | .merr e s1 => .merr e s1
          | .mok _ s1 =>
            if noChange oldInfo f then .mok false s1
            else
              match getPaths fuel env (some oldInfo) s1 with
              | .merr e s2 => .merr e s2
              | .mok oldPaths s2 =>
                match getPaths fuel env (some f) s2 with
                | .merr e s3 => .merr e s3
                | .mok newPaths s3 =>
                  if newPaths.isEmpty && oldPaths.isEmpty then .mok false s3
                  else if f.md5Checksum != oldInfo.md5Checksum then
                    match removeFileLocally fuel env oldInfo.id s3 with
                    | .merr e s4 => .merr e s4
                    | .mok _ s4 =>
                      match addFileLocally fuel env f s4 with
                      | .merr e s5 => .merr e s5
                      | .mok _ s5 => .mok true s5
                  else if oldPaths.isEmpty then
                    addFileLocally fuel env f s3
                  else if shouldIgnoreFile s3 f then .mok false s3
                  else
                    let oldSorted := sortPaths oldPaths
                    let newSorted := sortPaths newPaths
                    if oldSorted == newSorted then .mok false s3
                    else
                      match changePaths oldSorted newSorted s3 with
                      | .merr e s4 => .merr e s4
                      | .mok _ s4 => .mok true s4

/-! ### Claim C10 -/

/-- **C10.**  A remote change marked removed (or carrying a trashed record)
whose `fileId` is not in the Metadata Cache is applied as a no-op: the
reconciler returns `false` ("no change") and the state — Metadata Cache,
Path Index, Materialized Set, disk, side cache and event trace alike — is
returned unchanged. -/
theorem handleChange_removal_unknown (fuel : Nat) (env : RemoteEnv)
    (change : ChangeRec) (s : SyncState)
    (hrem : change.removed = true ∨
      ∃ f, change.file = some f ∧ f.trashed = true)
    (hunk : s.fileInfo change.fileId = none) :
    handleChange fuel env change s = .mok false s := by
  unfold handleChange
  by_cases hr : change.removed = true
  · rw [hr]
    simp only [if_true]
    unfold removeFileLocally
    rw [hunk]
  · rcases hrem with h | ⟨f, hf, ht⟩
    · exact absurd h hr
    · have hr' : change.removed = false := by
        cases h : change.removed
        · rfl
        · exact absurd h hr
      rw [hr']
      simp only [Bool.false_eq_true, if_false]
      rw [hf]
      simp only []
      rw [ht]
      simp only [if_true]
      unfold removeFileLocally
      rw [hunk]

/-- A minimal concrete state for witnesses: empty caches, index and disk. -/
def emptyState : SyncState :=
  { fileInfo := fun _ => none
    paths := fun _ => none
    parentInfoCache := fun _ => none
    onLocalDrive := fun _ => false
    disk := fun _ => none
    events := []
    rootId := "R"
    folder := "/root" }

/-- A remote environment where every request fails with a non-404 error and
every download succeeds (used by concrete witnesses). -/
def failEnv : RemoteEnv :=
  { fetch := fun _ => .error .fsErr, content := fun _ => .ok "h" }

/-- Witness for `handleChange_removal_unknown`: a removal change for an
unknown id applied to the empty state is a no-op. -/
theorem handleChange_removal_unknown_witness :
    handleChange 7 failEnv { removed := true, fileId := "Z", file := none }
      emptyState = .mok false emptyState :=
  handleChange_removal_unknown 7 failEnv
    { removed := true, fileId := "Z", file := none } emptyState
    (Or.inl rfl) rfl

/-! ### Frame properties of the fetch / path family

None of `getPaths`, `getFileInfo`, `getFileInfoBatch`, `storeFileInfo`,
`computePaths(info)` touches the disk, the event trace, the Materialized
Set, or the configuration. -/

/-- The fields left untouched by the metadata functions. -/
def FetchFrame (s s1 : SyncState) : Prop :=
  s1.disk = s.disk ∧ s1.events = s.events ∧
    s1.onLocalDrive = s.onLocalDrive ∧ s1.rootId = s.rootId ∧
    s1.folder = s.folder

theorem fetchFrame_refl (s : SyncState) : FetchFrame s s :=
  ⟨rfl, rfl, rfl, rfl, rfl⟩

theorem fetchFrame_trans {s t u : SyncState} (h1 : FetchFrame s t)
    (h2 : FetchFrame t u) : FetchFrame s u := by
  obtain ⟨a1, b1, c1, d1, e1⟩ := h1
  obtain ⟨a2, b2, c2, d2, e2⟩ := h2
  exact ⟨a2.trans a1, b2.trans b1, c2.trans c1, d2.trans d1, e2.trans e1⟩

theorem fetchFrame_picSet (p : String) (r : FileRecord) (s : SyncState) :
    FetchFrame s (picSet p r s) := fetchFrame_refl _

theorem fetchFrame_picDeleteAll (l : List String) :
    ∀ s : SyncState, FetchFrame s (picDeleteAll l s) := by
  induction l with
  | nil => intro s; exact fetchFrame_refl s
  | cons p ps ih =>
    intro s
    exact fetchFrame_trans (fetchFrame_refl _) (ih _)

theorem fetchFrame_cacheBatchResults
    (l : List (String × Option FileRecord)) :
    ∀ s : SyncState, FetchFrame s (cacheBatchResults l s) := by
  induction l with
  | nil => intro s; exact fetchFrame_refl s
  | cons e es ih =>
    intro s
    obtain ⟨p, v⟩ := e
    cases v with
    | none => exact ih s
    | some r => exact fetchFrame_trans (fetchFrame_picSet p r s) (ih _)

theorem fetchFrame_all (env : RemoteEnv) : ∀ fuel : Nat,
    (∀ x s, FetchFrame s (getPaths fuel env x s).state) ∧
    (∀ name ps s,
      FetchFrame s (getPathsParentsLoop fuel env name ps s).state) ∧
    (∀ p s, FetchFrame s (resolveParentInfo fuel env p s).state) ∧
    (∀ ids s, FetchFrame s (getFileInfoBatch fuel env ids s).state) ∧
    (∀ ids s, FetchFrame s (batchFetchLoop fuel env ids s).2) ∧
    (∀ id s, FetchFrame s (getFileInfo fuel env id s).state) ∧
    (∀ info s, FetchFrame s (storeFileInfo fuel env info s).state) ∧
    (∀ info s, FetchFrame s (computePathsOf fuel env info s).state) := by
  intro fuel
  induction fuel with
  | zero =>
    refine ⟨?_, ?_, ?_, ?_, ?_, ?_, ?_, ?_⟩
    · intro x s; cases x <;> exact fetchFrame_refl s
    · intro name ps s; cases ps <;> exact fetchFrame_refl s
    · intro p s; exact fetchFrame_refl s
    · intro ids s; exact fetchFrame_refl s
    · intro ids s; cases ids <;> exact fetchFrame_refl s
    · intro id s; exact fetchFrame_refl s
    · intro info s; exact fetchFrame_refl s
    · intro info s; exact fetchFrame_refl s
  | succ fuel ih =>
    obtain ⟨ihPaths, ihLoop, ihRes, ihBatch, ihBloop, ihGet, ihStore, ihCp⟩ :=
      ih
    have hPaths :
        ∀ x s, FetchFrame s (getPaths (fuel + 1) env x s).state := by
      intro x s
      cases x with
      | none => exact fetchFrame_refl s
      | some info =>
        unfold getPaths
        by_cases hroot : info.id = s.rootId
        · rw [if_pos hroot]
          exact fetchFrame_refl s
        · rw [if_neg hroot]
          cases info.parents with
          | none => exact fetchFrame_refl s
          | some parents =>
            simp only []
            by_cases hfetch :
                (parents.filter fun p => needsParentFetch s p).isEmpty
            · rw [if_pos hfetch]
              exact ihLoop info.name parents s
            · rw [if_neg hfetch]
              cases hb : getFileInfoBatch fuel env
                  (parents.filter fun p => needsParentFetch s p) s with
              | merr e s1 =>
                have := ihBatch
                  (parents.filter fun p => needsParentFetch s p) s
                rw [hb] at this
                exact this
              | mok results s1 =>
                have h1 := ihBatch
                  (parents.filter fun p => needsParentFetch s p) s
                rw [hb] at h1
                exact fetchFrame_trans
                  (fetchFrame_trans h1
                    (fetchFrame_cacheBatchResults results s1))
                  (ihLoop info.name parents (cacheBatchResults results s1))
    have hLoop : ∀ name ps s,
        FetchFrame s (getPathsParentsLoop (fuel + 1) env name ps s).state := by
      intro name ps s
      cases ps with
      | nil => exact fetchFrame_refl s
      | cons p rest =>
        unfold getPathsParentsLoop
        cases hr : resolveParentInfo fuel env p s with
        | merr e s1 =>
          have := ihRes p s
          rw [hr] at this
          exact this
        | mok pi s1 =>
          simp only []
          have h1 := ihRes p s
          rw [hr] at h1
          cases hg : getPaths fuel env pi s1 with
          | merr e s2 =>
            have h2 := ihPaths pi s1
            rw [hg] at h2
            exact fetchFrame_trans h1 h2
          | mok pps s2 =>
            simp only []
            have h2 := ihPaths pi s1
            rw [hg] at h2
            cases hl : getPathsParentsLoop fuel env name rest s2 with
            | merr e s3 =>
              have h3 := ihLoop name rest s2
              rw [hl] at h3
              exact fetchFrame_trans (fetchFrame_trans h1 h2) h3
            | mok rest2 s3 =>
              have h3 := ihLoop name rest s2
              rw [hl] at h3
              exact fetchFrame_trans (fetchFrame_trans h1 h2) h3
    have hRes : ∀ p s,
        FetchFrame s (resolveParentInfo (fuel + 1) env p s).state := by
      intro p s
      unfold resolveParentInfo
      cases s.parentInfoCache p with
      | some r => exact fetchFrame_refl s
      | none =>
        cases s.fileInfo p with
        | some r => exact fetchFrame_refl _
        | none =>
          cases hg : getFileInfo fuel env p s with
          | merr e s1 =>
            have := ihGet p s
            rw [hg] at this
            exact this
          | mok v s1 =>
            have h1 := ihGet p s
            rw [hg] at h1
            cases v with
            | some r => exact fetchFrame_trans h1 (fetchFrame_picSet p r s1)
            | none => exact h1
    have hGet : ∀ id s,
        FetchFrame s (getFileInfo (fuel + 1) env id s).state := by
      intro id s
      unfold getFileInfo
      cases hfi : s.fileInfo id with
      | some r => exact fetchFrame_refl s
      | none =>
        simp only []
        cases htt : tryTwice fun _ => env.fetch id with
        | ok r =>
          simp only []
          cases hs : storeFileInfo fuel env r s with
          | mok r2 s1 =>
            simp only []
            have := ihStore r s
            rw [hs] at this
            exact this
          | merr e s1 =>
            simp only []
            have := ihStore r s
            rw [hs] at this
            exact this
        | error e =>
          simp only []
          by_cases h404 : e = .http404
          · rw [if_pos h404]
            exact fetchFrame_refl s
          · rw [if_neg h404]
            exact fetchFrame_refl s
    have hBloop : ∀ ids s,
        FetchFrame s (batchFetchLoop (fuel + 1) env ids s).2 := by
      intro ids s
      cases ids with
      | nil => exact fetchFrame_refl s
      | cons id rest =>
        unfold batchFetchLoop
        cases hg : getFileInfo fuel env id s with
        | mok v s1 =>
          simp only []
          have h1 := ihGet id s
          rw [hg] at h1
          cases hb : batchFetchLoop fuel env rest s1 with
          | mk es s2 =>
            simp only []
            have h2 := ihBloop rest s1
            rw [hb] at h2
            exact fetchFrame_trans h1 h2
        | merr e s1 =>
          simp only []
          have h1 := ihGet id s
          rw [hg] at h1
          exact fetchFrame_trans h1 (ihBloop rest s1)
    have hBatch : ∀ ids s,
        FetchFrame s (getFileInfoBatch (fuel + 1) env ids s).state := by
      intro ids s
      unfold getFileInfoBatch
      by_cases hempty : (ids.filter fun id => (s.fileInfo id).isNone).isEmpty
      · rw [if_pos hempty]
        exact fetchFrame_refl s
      · rw [if_neg hempty]
        cases hb : batchFetchLoop fuel env
            (ids.filter fun id => (s.fileInfo id).isNone) s with
        | mk entries s1 =>
          have := ihBloop (ids.filter fun id => (s.fileInfo id).isNone) s
          rw [hb] at this
          exact this
    have hCp : ∀ info s,
        FetchFrame s (computePathsOf (fuel + 1) env info s).state := by
      intro info s
      unfold computePathsOf
      cases hg : getPaths fuel env (some info) s with
      | merr e s1 =>
        have := ihPaths (some info) s
        rw [hg] at this
        exact this
      | mok ps s1 =>
        have := ihPaths (some info) s
        rw [hg] at this
        exact fetchFrame_trans this ⟨rfl, rfl, rfl, rfl, rfl⟩
    have hStore : ∀ info s,
        FetchFrame s (storeFileInfo (fuel + 1) env info s).state := by
      intro info s
      unfold storeFileInfo
      cases hc : computePathsOf fuel env info s with
      | merr e s1 =>
        have := ihCp info s
        rw [hc] at this
        exact this
      | mok v s1 =>
        simp only []
        have h1 := ihCp info s
        rw [hc] at h1
        exact fetchFrame_trans
          (fetchFrame_trans h1 (fetchFrame_picDeleteAll _ s1))
          ⟨rfl, rfl, rfl, rfl, rfl⟩
    exact ⟨hPaths, hLoop, hRes, hBatch, hBloop, hGet, hStore, hCp⟩

/-! ### Claim C3 -/

/-- The events emitted by the deletion loop of `removeFileLocally`, given
the disk at entry: an `ignore` immediately followed by a `remove` for each
path present on disk; absent paths contribute nothing. -/
def removeLoopEvents : List String → (String → Option DiskEntry) → List FsEv
  | [], _ => []
  | p :: rest, d =>
    match d p with
    | none => removeLoopEvents rest d
    | some _ =>
      FsEv.ignoreEv p :: FsEv.removeEv p ::
        removeLoopEvents rest (upd d p none)

theorem removeLoop_spec :
    ∀ (ps : List String) (removed : Bool) (s : SyncState),
    (removeLoop ps removed s).1 =
      (removed || ps.any fun p => (s.disk p).isSome) ∧
    (∀ p, p ∈ ps → (removeLoop ps removed s).2.disk p = none) ∧
    (∀ p, p ∉ ps → (removeLoop ps removed s).2.disk p = s.disk p) ∧
    (removeLoop ps removed s).2.events =
      s.events ++ removeLoopEvents ps s.disk ∧
    (removeLoop ps removed s).2.fileInfo = s.fileInfo ∧
    (removeLoop ps removed s).2.paths = s.paths ∧
    (removeLoop ps removed s).2.parentInfoCache = s.parentInfoCache ∧
    (removeLoop ps removed s).2.onLocalDrive = s.onLocalDrive ∧
    (removeLoop ps removed s).2.rootId = s.rootId ∧
    (removeLoop ps removed s).2.folder = s.folder := by
  intro ps
  induction ps with
  | nil =>
    intro removed s
    refine ⟨by simp [removeLoop], ?_, ?_, by simp [removeLoop,
      removeLoopEvents], rfl, rfl, rfl, rfl, rfl, rfl⟩
    · intro p hp; simp at hp
    · intro p _; rfl
  | cons p rest ih =>
    intro removed s
    unfold removeLoop
    cases hd : s.disk p with
    | none =>
      obtain ⟨f1, f2, f3, f4, f5, f6, f7, f8, f9, f10⟩ := ih removed s
      refine ⟨?_, ?_, ?_, ?_, f5, f6, f7, f8, f9, f10⟩
      · rw [f1, List.any_cons, hd]
        simp
      · intro q hq
        rcases List.mem_cons.mp hq with rfl | hq
        · by_cases hmem : q ∈ rest
          · exact f2 q hmem
          · rw [f3 q hmem, hd]
        · exact f2 q hq
      · intro q hq
        exact f3 q fun h => hq (List.mem_cons_of_mem _ h)
      · rw [f4]
        simp [removeLoopEvents, hd]
    | some entry =>
      have hstep : fsRemove p (logEv (.ignoreEv p) s) =
          { s with
            disk := upd s.disk p none
            events := s.events ++ [FsEv.ignoreEv p, FsEv.removeEv p] } := by
        unfold fsRemove logEv
        simp [List.append_assoc]
      rw [hstep]
      obtain ⟨f1, f2, f3, f4, f5, f6, f7, f8, f9, f10⟩ := ih true
        { s with
          disk := upd s.disk p none
          events := s.events ++ [FsEv.ignoreEv p, FsEv.removeEv p] }
      refine ⟨?_, ?_, ?_, ?_, f5, f6, f7, f8, f9, f10⟩
      · rw [f1, List.any_cons, hd]
        simp
      · intro q hq
        rcases List.mem_cons.mp hq with rfl | hq
        · by_cases hmem : q ∈ rest
          · exact f2 q hmem
          · rw [f3 q hmem]
            simp [upd]
        · exact f2 q hq
      · intro q hq
        rw [f3 q fun h => hq (List.mem_cons_of_mem _ h)]
        have hqp : q ≠ p := fun h => hq (h ▸ List.mem_cons_self _ _)
        simp [upd, hqp]
      · rw [f4]
        simp [removeLoopEvents, hd, List.append_assoc]

/-- **C3, amended.**  For a removal of a cached id: the record leaves the
Metadata Cache, its computed paths leave the Path Index, each such path
that exists on disk is deleted and each deletion is immediately preceded by
an `ignore` call, the return value is "changed" iff at least one file was
actually removed from disk — but the Materialized Set (`onLocalDrive`) is
left entirely unchanged (the original claim's "drops the Materialized Set
entries" does not happen). -/
theorem removeFileLocally_spec (fuel : Nat) (env : RemoteEnv)
    (fileId : String) (s : SyncState) (info : FileRecord) (ps : List String)
    (sp : SyncState) (hinfo : s.fileInfo fileId = some info)
    (hps : getPaths fuel env (some info) s = .mok ps sp) :
    ∃ removed s4, removeFileLocally fuel env fileId s = .mok removed s4 ∧
      s4.fileInfo fileId = none ∧
      (∀ k, k ≠ fileId → s4.fileInfo k = sp.fileInfo k) ∧
      (∀ p, p ∈ ps → s4.paths p = none) ∧
      (∀ p, p ∉ ps → s4.paths p = sp.paths p) ∧
      (∀ p, p ∈ ps → s4.disk p = none) ∧
      (∀ p, p ∉ ps → s4.disk p = s.disk p) ∧
      s4.onLocalDrive = s.onLocalDrive ∧
      s4.events = s.events ++ removeLoopEvents ps s.disk ∧
      (removed = true ↔ (ps.any fun p => (s.disk p).isSome) = true) := by
  have hframe : FetchFrame s sp := by
    have := (fetchFrame_all env fuel).1 (some info) s
    rw [hps] at this
    exact this
  obtain ⟨hdisk, hevents, hlocal, hroot, hfolder⟩ := hframe
  unfold removeFileLocally
  rw [hinfo]
  simp only []
  rw [hps]
  simp only []
  by_cases hemp : ps.isEmpty
  · rw [if_pos hemp]
    have hps' : ps = [] := List.isEmpty_iff.mp hemp
    subst hps'
    refine ⟨false, _, rfl, ?_, ?_, ?_, ?_, ?_, ?_, ?_, ?_, ?_⟩
    · simp [upd]
    · intro k hk; simp [upd, hk]
    · intro p hp; simp at hp
    · intro p _; rfl
    · intro p hp; simp at hp
    · intro p _; rw [hdisk]
    · exact hlocal
    · rw [hevents]
      simp [removeLoopEvents]
    · simp
  · rw [if_neg hemp]
    set s3 : SyncState :=
      { sp with
        fileInfo := upd sp.fileInfo fileId none
        paths := fun x => if x ∈ ps then none else sp.paths x } with hs3
    obtain ⟨f1, f2, f3, f4, f5, f6, f7, f8, f9, f10⟩ :=
      removeLoop_spec ps false s3
    cases hr : removeLoop ps false s3 with
    | mk removed s4 =>
      rw [hr] at f1 f2 f3 f4 f5 f6 f7 f8 f9 f10
      simp only [] at f1 f2 f3 f4 f5 f6 f7 f8 f9 f10
      refine ⟨removed, s4, rfl, ?_, ?_, ?_, ?_, ?_, ?_, ?_, ?_, ?_⟩
      · rw [f5]; simp [hs3, upd]
      · intro k hk; rw [f5]; simp [hs3, upd, hk]
      · intro p hp; rw [f6]; simp [hs3, hp]
      · intro p hp; rw [f6]; simp [hs3, hp]
      · intro p hp
        exact f2 p hp
      · intro p hp
        rw [f3 p hp]
        show sp.disk p = s.disk p
        rw [hdisk]
      · rw [f8]
        show sp.onLocalDrive = s.onLocalDrive
        exact hlocal
      · rw [f4]
        show sp.events ++ removeLoopEvents ps s3.disk =
          s.events ++ removeLoopEvents ps s.disk
        rw [hevents]
        congr 1
        show removeLoopEvents ps sp.disk = removeLoopEvents ps s.disk
        rw [hdisk]
      · rw [f1]
        show (false || ps.any fun p => (sp.disk p).isSome) = true ↔
          (ps.any fun p => (s.disk p).isSome) = true
        rw [hdisk]
        simp

/-- The root record used in counterexample states. -/
def c3Root : FileRecord :=
  { id := "R", name := "root",
    mimeType := "application/vnd.google-apps.folder", md5Checksum := none,
    size := none, modifiedTime := "0", parents := none, trashed := false }

/-- A cached file record living directly under the root. -/
def c3XRec : FileRecord :=
  { id := "X", name := "x.txt", mimeType := "text/plain",
    md5Checksum := some "h", size := some 1, modifiedTime := "1",
    parents := some ["R"], trashed := false }

/-- A state in which `X` is cached, materialized at `/root/x.txt`, present
on disk, and registered in the Materialized Set. -/
def c3State : SyncState :=
  { fileInfo := fun id =>
      if id = "R" then some c3Root
      else if id = "X" then some c3XRec
      else none
    paths := fun p => if p = "/root/x.txt" then some "X" else none
    parentInfoCache := fun _ => none
    onLocalDrive := fun k => k = b64 "/root/x.txt"
    disk := fun p =>
      if p = "/root" then some .dir
      else if p = "/root/x.txt" then some (.file "h")
      else none
    events := []
    rootId := "R"
    folder := "/root" }

/-- **C3, counterexample.**  Removing the cached record `X` from `c3State`
deletes its file from disk and reports "changed", yet its Materialized Set
entry (`onLocalDrive[b64 "/root/x.txt"]`) survives — `removeFileLocally`
never touches `onLocalDrive`, refuting the claim's "drops the corresponding
Materialized Set entries". -/
theorem C3_counterexample :
    (removeFileLocally 10 failEnv "X" c3State).isOk = true ∧
    (match removeFileLocally 10 failEnv "X" c3State with
      | .mok b _ => b
      | .merr _ _ => false) = true ∧
    (removeFileLocally 10 failEnv "X" c3State).state.disk "/root/x.txt" =
      none ∧
    locallyRegistered "/root/x.txt" c3State = true ∧
    locallyRegistered "/root/x.txt"
      (removeFileLocally 10 failEnv "X" c3State).state = true := by
  refine ⟨by decide, by decide, by decide, by decide, by decide⟩

/-- Witness for `removeFileLocally_spec` at the concrete state `c3State`. -/
theorem removeFileLocally_spec_witness :
    ∃ removed s4, removeFileLocally 10 failEnv "X" c3State = .mok removed s4 ∧
      s4.fileInfo "X" = none ∧
      (∀ k, k ≠ "X" →
        s4.fileInfo k =
          (getPaths 10 failEnv (some c3XRec) c3State).state.fileInfo k) ∧
      (∀ p, p ∈ ["/root/x.txt"] → s4.paths p = none) ∧
      (∀ p, p ∉ ["/root/x.txt"] →
        s4.paths p =
          (getPaths 10 failEnv (some c3XRec) c3State).state.paths p) ∧
      (∀ p, p ∈ ["/root/x.txt"] → s4.disk p = none) ∧
      (∀ p, p ∉ ["/root/x.txt"] → s4.disk p = c3State.disk p) ∧
      s4.onLocalDrive = c3State.onLocalDrive ∧
      s4.events = c3State.events ++
        removeLoopEvents ["/root/x.txt"] c3State.disk ∧
      (removed = true ↔
        (["/root/x.txt"].any fun p => (c3State.disk p).isSome) = true) :=
  removeFileLocally_spec 10 failEnv "X" c3State c3XRec ["/root/x.txt"]
    ((getPaths 10 failEnv (some c3XRec) c3State).state) rfl rfl

/-! ### Claim C6 -/

/-- The events of the pairing loop of `changePaths`: ignore-ignore-rename
for each removed/added pair, then ignore-remove for each surplus removed
path. -/
def pairEvents : List String → List String → List FsEv
  | [], _ => []
  | r :: rs, [] => FsEv.ignoreEv r :: FsEv.removeEv r :: pairEvents rs []
  | r :: rs, a :: as =>
    FsEv.ignoreEv r :: FsEv.ignoreEv a :: FsEv.renameEv r a ::
      pairEvents rs as

theorem cpMkdirLoop_spec :
    ∀ (added : List String) (s : SyncState),
    (∀ a ∈ added, ∀ h, s.disk (dirname a) ≠ some (.file h)) →
    ∃ s1, cpMkdirLoop added s = .mok () s1 ∧
      s1.events = s.events ++ (added.map fun a => FsEv.mkdirEv (dirname a)) ∧
      (∀ q, q ∉ added.map dirname → s1.disk q = s.disk q) ∧
      (∀ q, s1.disk q = s.disk q ∨
        (s.disk q = none ∧ s1.disk q = some .dir)) ∧
      s1.fileInfo = s.fileInfo ∧ s1.paths = s.paths ∧
      s1.parentInfoCache = s.parentInfoCache ∧
      s1.onLocalDrive = s.onLocalDrive ∧ s1.rootId = s.rootId ∧
      s1.folder = s.folder := by
  intro added
  induction added with
  | nil =>
    intro s _
    exact ⟨s, rfl, by simp, fun q _ => rfl, fun q => Or.inl rfl, rfl, rfl,
      rfl, rfl, rfl, rfl⟩
  | cons a rest ih =>
    intro s hdirs
    unfold cpMkdirLoop mkdirp
    cases hd : (logEv (FsEv.mkdirEv (dirname a)) s).disk (dirname a) with
    | some entry =>
      cases entry with
      | file h =>
        exact absurd hd (hdirs a (List.mem_cons_self _ _) h)
      | dir =>
        simp only [hd]
        obtain ⟨s1, h1, hev, hpres, hdisk, hfi, hpa, hpic, hold, hrt, hfo⟩ :=
          ih (logEv (FsEv.mkdirEv (dirname a)) s)
            (fun b hb h => hdirs b (List.mem_cons_of_mem _ hb) h)
        refine ⟨s1, h1, ?_, ?_, ?_, hfi, hpa, hpic, hold, hrt, hfo⟩
        · rw [hev]
          show (s.events ++ [FsEv.mkdirEv (dirname a)]) ++ _ = _
          simp [List.append_assoc]
        · intro q hq
          rw [hpres q fun h => hq (List.mem_cons_of_mem _ h)]
          rfl
        · intro q
          exact hdisk q
    | none =>
      simp only [hd]
      obtain ⟨s1, h1, hev, hpres, hdisk, hfi, hpa, hpic, hold, hrt, hfo⟩ :=
        ih { logEv (FsEv.mkdirEv (dirname a)) s with
              disk := upd (logEv (FsEv.mkdirEv (dirname a)) s).disk
                (dirname a) (some .dir) }
          (by
            intro b hb h hcon
            by_cases he : dirname b = dirname a
            · rw [he] at hcon
              simp [upd, logEv] at hcon
            · simp only [upd, if_neg he] at hcon
              exact hdirs b (List.mem_cons_of_mem _ hb) h hcon)
      refine ⟨s1, h1, ?_, ?_, ?_, hfi, hpa, hpic, hold, hrt, hfo⟩
      · rw [hev]
        show ((s.events ++ [FsEv.mkdirEv (dirname a)]) ++ _ : List FsEv) = _
        simp [List.append_assoc]
      · intro q hq
        rw [hpres q fun h => hq (List.mem_cons_of_mem _ h)]
        have hqa : q ≠ dirname a := fun h =>
          hq (h ▸ List.mem_cons_self _ _)
        simp [upd, hqa, logEv]
      · intro q
        rcases hdisk q with h | ⟨h1', h2'⟩
        · rw [h]
          by_cases hqa : q = dirname a
          · subst hqa
            right
            refine ⟨hd, ?_⟩
            simp [upd, logEv]
          · left
            simp [upd, hqa, logEv]
        · by_cases hqa : q = dirname a
          · subst hqa
            right
            exact ⟨hd, h2'⟩
          · simp only [upd, if_neg hqa] at h1'
            right
            exact ⟨h1', h2'⟩

theorem cpPairLoop_spec :
    ∀ (removed added : List String) (s : SyncState),
    removed.Nodup → added.Nodup →
    (∀ r ∈ removed, (s.disk r).isSome = true) →
    (∀ r ∈ removed, r ∉ added) →
    ∃ s1, cpPairLoop removed added s = .mok () s1 ∧
      s1.events = s.events ++ pairEvents removed added ∧
      (∀ r ∈ removed, s1.disk r = none) ∧
      (∀ i, i < removed.length → i < added.length →
        s1.disk (added.getD i "") = s.disk (removed.getD i "")) ∧
      (∀ q, q ∉ removed → q ∉ added.take removed.length →
        s1.disk q = s.disk q) ∧
      s1.fileInfo = s.fileInfo ∧ s1.paths = s.paths ∧
      s1.parentInfoCache = s.parentInfoCache ∧
      s1.onLocalDrive = s.onLocalDrive ∧ s1.rootId = s.rootId ∧
      s1.folder = s.folder := by
  intro removed
  induction removed with
  | nil =>
    intro added s _ _ _ _
    refine ⟨s, rfl, by simp [pairEvents], ?_, ?_, fun q _ _ => rfl, rfl, rfl,
      rfl, rfl, rfl, rfl⟩
    · intro r hr; simp at hr
    · intro i hi; simp at hi
  | cons r rs ih =>
    intro added s hnr hna hsrc hdisj
    have hrnotrs : r ∉ rs := (List.nodup_cons.mp hnr).1
    have hnr' : rs.Nodup := (List.nodup_cons.mp hnr).2
    cases added with
    | nil =>
      have hstep : fsRemove r (logEv (.ignoreEv r) s) =
          { s with
            disk := upd s.disk r none
            events := s.events ++ [FsEv.ignoreEv r, FsEv.removeEv r] } := by
        unfold fsRemove logEv
        simp [List.append_assoc]
      unfold cpPairLoop
      rw [hstep]
      obtain ⟨s1, h1, hev, hrem, hpairs, hpres, hfi, hpa, hpic, hold, hrt,
        hfo⟩ :=
        ih []
          { s with
            disk := upd s.disk r none
            events := s.events ++ [FsEv.ignoreEv r, FsEv.removeEv r] }
          hnr' (by simp)
          (by
            intro q hq
            have hqr : q ≠ r := fun h => hrnotrs (h ▸ hq)
            simp only [upd, if_neg hqr]
            exact hsrc q (List.mem_cons_of_mem _ hq))
          (by intro q _; simp)
      refine ⟨s1, h1, ?_, ?_, ?_, ?_, hfi, hpa, hpic, hold, hrt, hfo⟩
      · rw [hev]
        simp [pairEvents, List.append_assoc]
      · intro q hq
        rcases List.mem_cons.mp hq with rfl | hq
        · rw [hpres q hrnotrs (by simp)]
          simp [upd]
        · exact hrem q hq
      · intro i hi1 hi2; simp at hi2
      · intro q hq hq2
        have hqr : q ≠ r := fun h => hq (h ▸ List.mem_cons_self _ _)
        rw [hpres q (fun h => hq (List.mem_cons_of_mem _ h)) (by simp)]
        simp [upd, hqr]
    | cons a as =>
      have hana : a ∉ as := (List.nodup_cons.mp hna).1
      have hna' : as.Nodup := (List.nodup_cons.mp hna).2
      have hra : r ≠ a := by
        intro h
        exact hdisj r (List.mem_cons_self _ _) (h ▸ List.mem_cons_self _ _)
      obtain ⟨e, he⟩ := Option.isSome_iff_exists.mp
        (hsrc r (List.mem_cons_self _ _))
      have hstep : ∀ u : MRes Unit,
          (match fsRename r a (logEv (.ignoreEv a) (logEv (.ignoreEv r) s))
            with
          | .merr e1 t => MRes.merr e1 t
          | .mok _ t => cpPairLoop rs as t) =
          cpPairLoop rs as
            { s with
              disk := upd (upd s.disk r none) a (some e)
              events := s.events ++
                [FsEv.ignoreEv r, FsEv.ignoreEv a, FsEv.renameEv r a] } := by
        intro u
        unfold fsRename logEv
        simp only []
        rw [show (({ s with events := s.events ++ [FsEv.ignoreEv r] } :
            SyncState).events ++ [FsEv.ignoreEv a]) ++ [FsEv.renameEv r a] =
            s.events ++ [FsEv.ignoreEv r, FsEv.ignoreEv a,
              FsEv.renameEv r a] by simp [List.append_assoc]]
        rw [show ({ s with events := s.events ++ [FsEv.ignoreEv r] } :
            SyncState).disk r = s.disk r from rfl, he]
      unfold cpPairLoop
      rw [hstep (MRes.mok () s)]
      obtain ⟨s1, h1, hev, hrem, hpairs, hpres, hfi, hpa, hpic, hold, hrt,
        hfo⟩ :=
        ih as
          { s with
            disk := upd (upd s.disk r none) a (some e)
            events := s.events ++
              [FsEv.ignoreEv r, FsEv.ignoreEv a, FsEv.renameEv r a] }
          hnr' hna'
          (by
            intro q hq
            have hqr : q ≠ r := fun h => hrnotrs (h ▸ hq)
            have hqa : q ≠ a := fun h =>
              hdisj q (List.mem_cons_of_mem _ hq)
                (h ▸ List.mem_cons_self _ _)
            simp only [upd, if_neg hqr, if_neg hqa]
            exact hsrc q (List.mem_cons_of_mem _ hq))
          (fun q hq h =>
            hdisj q (List.mem_cons_of_mem _ hq) (List.mem_cons_of_mem _ h))
      refine ⟨s1, h1, ?_, ?_, ?_, ?_, hfi, hpa, hpic, hold, hrt, hfo⟩
      · rw [hev]
        simp [pairEvents, List.append_assoc]
      · intro q hq
        rcases List.mem_cons.mp hq with rfl | hq
        · have hqtake : q ∉ as.take rs.length := by
            intro h
            exact hdisj q (List.mem_cons_self _ _)
              (List.mem_cons_of_mem _ (List.mem_of_mem_take h))
          rw [hpres q hrnotrs hqtake]
          simp [upd, hra]
        · exact hrem q hq
      · intro i hi1 hi2
        cases i with
        | zero =>
          have hatake : a ∉ as.take rs.length := fun h =>
            hana (List.mem_of_mem_take h)
          have hanotrs : a ∉ rs := fun h =>
            hdisj a (List.mem_cons_of_mem _ h) (List.mem_cons_self _ _)
          rw [List.getD_cons_zero, List.getD_cons_zero,
            hpres a hanotrs hatake, he]
          simp [upd]
        | succ i =>
          rw [List.getD_cons_succ, List.getD_cons_succ]
          have hi1' : i < rs.length := by simpa using hi1
          have hi2' : i < as.length := by simpa using hi2
          rw [hpairs i hi1' hi2']
          have hmem : rs.getD i "" ∈ rs := by
            rw [List.getD_eq_getElem _ _ hi1']
            exact List.getElem_mem _
          have hqr : rs.getD i "" ≠ r := fun h => hrnotrs (h ▸ hmem)
          have hqa : rs.getD i "" ≠ a := fun h =>
            hdisj _ (List.mem_cons_of_mem _ hmem)
              (h ▸ List.mem_cons_self _ _)
          show upd (upd s.disk r none) a (some e) (rs.getD i "") =
            s.disk (rs.getD i "")
          simp only [upd, if_neg hqa, if_neg hqr]
      · intro q hq hq2
        have hqr : q ≠ r := fun h => hq (h ▸ List.mem_cons_self _ _)
        have hqa : q ≠ a := fun h => hq2 (by
          rw [h]
          show a ∈ (a :: as).take (r :: rs).length
          simp [List.take_cons])
        rw [hpres q (fun h => hq (List.mem_cons_of_mem _ h))
          (fun h => hq2 (by
            show q ∈ (a :: as).take (r :: rs).length
            simp only [List.length_cons, List.take_cons]
            exact List.mem_cons_of_mem _ h))]
        simp [upd, hqr, hqa]

theorem cpCopyLoop_spec :
    ∀ (src : String) (targets : List String) (s : SyncState),
    (s.disk src).isSome = true → src ∉ targets →
    ∃ s1, cpCopyLoop src targets s = .mok () s1 ∧
      s1.events = s.events ++ (targets.flatMap fun a =>
        [FsEv.ignoreEv a, FsEv.copyEv src a]) ∧
      (∀ a ∈ targets, s1.disk a = s.disk src) ∧
      (∀ q, q ∉ targets → s1.disk q = s.disk q) ∧
      s1.fileInfo = s.fileInfo ∧ s1.paths = s.paths ∧
      s1.parentInfoCache = s.parentInfoCache ∧
      s1.onLocalDrive = s.onLocalDrive ∧ s1.rootId = s.rootId ∧
      s1.folder = s.folder := by
  intro src targets
  induction targets with
  | nil =>
    intro s _ _
    refine ⟨s, rfl, by simp, ?_, fun q _ => rfl, rfl, rfl, rfl, rfl, rfl,
      rfl⟩
    intro a ha; simp at ha
  | cons a as ih =>
    intro s hsrc hnotin
    have hsa : src ≠ a := fun h => hnotin (h ▸ List.mem_cons_self _ _)
    obtain ⟨e, he⟩ := Option.isSome_iff_exists.mp hsrc
    have hstep :
        (match fsCopy src a (logEv (.ignoreEv a) s) with
        | .merr e1 t => MRes.merr e1 t
        | .mok _ t => cpCopyLoop src as t) =
        cpCopyLoop src as
          { s with
            disk := upd s.disk a (some e)
            events := s.events ++ [FsEv.ignoreEv a, FsEv.copyEv src a] } := by
      unfold fsCopy logEv
      simp only []
      rw [show ({ s with events := s.events ++ [FsEv.ignoreEv a] } :
          SyncState).disk src = s.disk src from rfl, he]
      simp [List.append_assoc]
    unfold cpCopyLoop
    rw [hstep]
    obtain ⟨s1, h1, hev, htargets, hpres, hfi, hpa, hpic, hold, hrt, hfo⟩ :=
      ih { s with
            disk := upd s.disk a (some e)
            events := s.events ++ [FsEv.ignoreEv a, FsEv.copyEv src a] }
        (by simp only [upd, if_neg hsa]; exact hsrc)
        (fun h => hnotin (List.mem_cons_of_mem _ h))
    refine ⟨s1, h1, ?_, ?_, ?_, hfi, hpa, hpic, hold, hrt, hfo⟩
    · rw [hev]
      simp [List.append_assoc]
    · intro b hb
      rcases List.mem_cons.mp hb with rfl | hb
      · by_cases hbas : b ∈ as
        · rw [htargets b hbas]
          simp [upd, hsa, he]
        · rw [hpres b hbas]
          simp [upd, he]
      · rw [htargets b hb]
        simp [upd, hsa, he]
    · intro q hq
      have hqa : q ≠ a := fun h => hq (h ▸ List.mem_cons_self _ _)
      rw [hpres q fun h => hq (List.mem_cons_of_mem _ h)]
      simp [upd, hqa]

/-- `removed = old ∖ new` as computed by `changePaths`. -/
def removedOf (oldPaths newPaths : List String) : List String :=
  oldPaths.filter fun p => !(newPaths.contains p)

/-- `added = new ∖ old` as computed by `changePaths`. -/
def addedOf (oldPaths newPaths : List String) : List String :=
  newPaths.filter fun p => !(oldPaths.contains p)

/-- **C6, amended.**  For the path delta on a non-empty old list: the
parent directory of every added path is created first, each removed path at
index `i < |added|` is renamed to the added path at the same index (both
paths ignored immediately beforehand), every surplus removed path is
ignored and deleted, and every surplus added path is filled by copying from
`newPaths[0]` — the *first path of the new list*, not "the first surviving
new path".  The hypotheses require the rename sources to exist, no file to
occupy a needed directory path, and `newPaths[0]` to be available as a copy
source (it must not itself be a surplus added path). -/
theorem changePaths_spec (oldPaths newPaths : List String) (s : SyncState)
    (hne : oldPaths ≠ []) (hndOld : oldPaths.Nodup) (hndNew : newPaths.Nodup)
    (hsrcs : ∀ r ∈ removedOf oldPaths newPaths, (s.disk r).isSome = true)
    (hdirs : ∀ a ∈ addedOf oldPaths newPaths,
      ∀ h, s.disk (dirname a) ≠ some (.file h))
    (hsrcok :
      (addedOf oldPaths newPaths).drop (removedOf oldPaths newPaths).length
          ≠ [] →
      (newPaths.headD "" ∈
          (addedOf oldPaths newPaths).take
            (removedOf oldPaths newPaths).length ∨
        ((s.disk (newPaths.headD "")).isSome = true ∧
          newPaths.headD "" ∉ removedOf oldPaths newPaths)) ∧
      newPaths.headD "" ∉
        (addedOf oldPaths newPaths).drop
          (removedOf oldPaths newPaths).length) :
    ∃ s3, changePaths oldPaths newPaths s = .mok () s3 ∧
      s3.events = s.events
        ++ ((addedOf oldPaths newPaths).map fun a =>
              FsEv.mkdirEv (dirname a))
        ++ pairEvents (removedOf oldPaths newPaths)
            (addedOf oldPaths newPaths)
        ++ (((addedOf oldPaths newPaths).drop
              (removedOf oldPaths newPaths).length).flatMap fun a =>
            [FsEv.ignoreEv a, FsEv.copyEv (newPaths.headD "") a]) ∧
      (∀ i, i < (removedOf oldPaths newPaths).length →
        i < (addedOf oldPaths newPaths).length →
        s3.disk ((addedOf oldPaths newPaths).getD i "") =
          s.disk ((removedOf oldPaths newPaths).getD i "")) ∧
      (∀ r ∈ removedOf oldPaths newPaths, s3.disk r = none) ∧
      (∀ a ∈ (addedOf oldPaths newPaths).drop
          (removedOf oldPaths newPaths).length,
        s3.disk a = s3.disk (newPaths.headD "")) ∧
      (∀ q, q ∉ removedOf oldPaths newPaths →
        q ∉ addedOf oldPaths newPaths →
        q ∉ (addedOf oldPaths newPaths).map dirname →
        s3.disk q = s.disk q) ∧
      s3.fileInfo = s.fileInfo ∧ s3.paths = s.paths ∧
      s3.parentInfoCache = s.parentInfoCache ∧
      s3.onLocalDrive = s.onLocalDrive := by
  have hnd_rem : (removedOf oldPaths newPaths).Nodup := hndOld.filter _
  have hnd_add : (addedOf oldPaths newPaths).Nodup := hndNew.filter _
  have hmem_rem : ∀ r ∈ removedOf oldPaths newPaths, r ∈ oldPaths := by
    intro r hr
    exact (List.mem_filter.mp hr).1
  have hmem_add : ∀ a ∈ addedOf oldPaths newPaths, a ∉ oldPaths := by
    intro a ha
    have := (List.mem_filter.mp ha).2
    simpa using this
  have hdisj : ∀ r ∈ removedOf oldPaths newPaths,
      r ∉ addedOf oldPaths newPaths := by
    intro r hr hmem
    exact hmem_add r hmem (hmem_rem r hr)
  -- phase 1: mkdirp of every added path's directory
  obtain ⟨s1, h1, ev1, pres1, disk1, fi1, pa1, pic1, old1, rt1, fo1⟩ :=
    cpMkdirLoop_spec (addedOf oldPaths newPaths) s hdirs
  have keep1 : ∀ q, (s.disk q).isSome = true → s1.disk q = s.disk q := by
    intro q hq
    rcases disk1 q with h | ⟨h', _⟩
    · exact h
    · rw [h'] at hq
      simp at hq
  -- phase 2: pair renames and surplus deletions
  obtain ⟨s2, h2, ev2, rem2, pairs2, pres2, fi2, pa2, pic2, old2, rt2, fo2⟩ :=
    cpPairLoop_spec (removedOf oldPaths newPaths)
      (addedOf oldPaths newPaths) s1 hnd_rem hnd_add
      (by
        intro r hr
        rw [keep1 r (hsrcs r hr)]
        exact hsrcs r hr)
      hdisj
  have hpair_disk : ∀ i, i < (removedOf oldPaths newPaths).length →
      i < (addedOf oldPaths newPaths).length →
      s2.disk ((addedOf oldPaths newPaths).getD i "") =
        s.disk ((removedOf oldPaths newPaths).getD i "") := by
    intro i hi1 hi2
    rw [pairs2 i hi1 hi2]
    have hmem : (removedOf oldPaths newPaths).getD i "" ∈
        removedOf oldPaths newPaths := by
      rw [List.getD_eq_getElem _ _ hi1]
      exact List.getElem_mem _
    exact keep1 _ (hsrcs _ hmem)
  have htakedrop : List.Disjoint
      ((addedOf oldPaths newPaths).take
        (removedOf oldPaths newPaths).length)
      ((addedOf oldPaths newPaths).drop
        (removedOf oldPaths newPaths).length) := by
    have h := hnd_add
    rw [← List.take_append_drop (removedOf oldPaths newPaths).length
      (addedOf oldPaths newPaths)] at h
    exact List.disjoint_of_nodup_append h
  -- phase 3: surplus copies
  cases hsurplus : (addedOf oldPaths newPaths).drop
      (removedOf oldPaths newPaths).length with
  | nil =>
    -- no copies; the copy loop is a no-op
    refine ⟨s2, ?_, ?_, hpair_disk, ?_, ?_, ?_, ?_, ?_, ?_, ?_⟩
    · show changePaths oldPaths newPaths s = .mok () s2
      unfold changePaths
      rw [if_neg (by simpa using hne)]
      simp only []
      rw [show (oldPaths.filter fun p => !(newPaths.contains p)) =
        removedOf oldPaths newPaths from rfl]
      rw [show (newPaths.filter fun p => !(oldPaths.contains p)) =
        addedOf oldPaths newPaths from rfl]
      rw [h1]
      simp only []
      rw [h2]
      simp only []
      rw [hsurplus]
      rfl
    · simp only [List.flatMap_nil, List.append_nil]
      rw [ev2, ev1]
    · exact rem2
    · intro a ha
      simp at ha
    · intro q hq1 hq2 hq3
      rw [pres2 q hq1
        (fun h => hq2 (List.mem_of_mem_take h))]
      exact pres1 q hq3
    · rw [fi2, fi1]
    · rw [pa2, pa1]
    · rw [pic2, pic1]
    · rw [old2, old1]
  | cons a0 rest0 =>
    have hsurne : (addedOf oldPaths newPaths).drop
        (removedOf oldPaths newPaths).length ≠ [] := by
      rw [hsurplus]
      simp
    obtain ⟨hsrc_cases, hsrc_notin⟩ := hsrcok hsurne
    have hs2src : (s2.disk (newPaths.headD "")).isSome = true := by
      by_cases htake : newPaths.headD "" ∈
          (addedOf oldPaths newPaths).take
            (removedOf oldPaths newPaths).length
      · obtain ⟨i, hi, hgi⟩ := List.mem_iff_getElem.mp htake
        have hik : i < (removedOf oldPaths newPaths).length := by
          have := hi
          simp only [List.length_take] at this
          omega
        have hia : i < (addedOf oldPaths newPaths).length := by
          have := hi
          simp only [List.length_take] at this
          omega
        have hgd : (addedOf oldPaths newPaths).getD i "" =
            newPaths.headD "" := by
          rw [List.getD_eq_getElem _ _ hia]
          rw [List.getElem_take] at hgi
          exact hgi
        rw [← hgd, hpair_disk i hik hia]
        have hmem : (removedOf oldPaths newPaths).getD i "" ∈
            removedOf oldPaths newPaths := by
          rw [List.getD_eq_getElem _ _ hik]
          exact List.getElem_mem _
        exact hsrcs _ hmem
      · rcases hsrc_cases with h | ⟨hsome, hnotrem⟩
        · exact absurd h htake
        · rw [pres2 _ hnotrem htake, keep1 _ hsome]
          exact hsome
    obtain ⟨s3, h3, ev3, tgt3, pres3, fi3, pa3, pic3, old3, rt3, fo3⟩ :=
      cpCopyLoop_spec (newPaths.headD "")
        ((addedOf oldPaths newPaths).drop
          (removedOf oldPaths newPaths).length) s2 hs2src hsrc_notin
    refine ⟨s3, ?_, ?_, ?_, ?_, ?_, ?_, ?_, ?_, ?_, ?_⟩
    · show changePaths oldPaths newPaths s = .mok () s3
      unfold changePaths
      rw [if_neg (by simpa using hne)]
      simp only []
      rw [show (oldPaths.filter fun p => !(newPaths.contains p)) =
        removedOf oldPaths newPaths from rfl]
      rw [show (newPaths.filter fun p => !(oldPaths.contains p)) =
        addedOf oldPaths newPaths from rfl]
      rw [h1]
      simp only []
      rw [h2]
      simp only []
      exact h3
    · rw [ev3, ev2, ev1, hsurplus]
    · intro i hi1 hi2
      have hmem_take : (addedOf oldPaths newPaths).getD i "" ∈
          (addedOf oldPaths newPaths).take
            (removedOf oldPaths newPaths).length := by
        rw [List.getD_eq_getElem _ _ hi2]
        rw [List.mem_iff_getElem]
        refine ⟨i, by simp [List.length_take]; omega, ?_⟩
        rw [List.getElem_take]
      have hnot : (addedOf oldPaths newPaths).getD i "" ∉
          (addedOf oldPaths newPaths).drop
            (removedOf oldPaths newPaths).length := by
        intro h
        exact htakedrop hmem_take h
      rw [pres3 _ hnot]
      exact hpair_disk i hi1 hi2
    · intro r hr
      have hrnot : r ∉ (addedOf oldPaths newPaths).drop
          (removedOf oldPaths newPaths).length := by
        intro h
        exact hdisj r hr (List.mem_of_mem_drop h)
      rw [pres3 r hrnot]
      exact rem2 r hr
    · intro a ha
      rw [← hsurplus] at ha
      rw [tgt3 a ha, pres3 _ hsrc_notin]
    · intro q hq1 hq2 hq3
      have hqdrop : q ∉ (addedOf oldPaths newPaths).drop
          (removedOf oldPaths newPaths).length := by
        intro h
        exact hq2 (List.mem_of_mem_drop h)
      rw [pres3 q hqdrop,
        pres2 q hq1 (fun h => hq2 (List.mem_of_mem_take h))]
      exact pres1 q hq3
    · rw [fi3, fi2, fi1]
    · rw [pa3, pa2, pa1]
    · rw [pic3, pic2, pic1]
    · rw [old3, old2, old1]

/-- State for the path-delta scenarios: a root directory holding one file. -/
def c6State : SyncState :=
  { emptyState with disk := fun p =>
      if p = "/root" then some .dir
      else if p = "/root/b" then some (.file "h") else none }

/-- **C6 counterexample.**  With old paths `["/root/b"]` and new paths
`["/root/a", "/root/b"]`, the delta has no removed paths and one surplus
added path `"/root/a"`.  The first *surviving* new path is `"/root/b"`,
which exists on disk; but the code copies from `newPaths[0] = "/root/a"`,
a path that does not exist yet, so the copy fails: the operation errors
out and the surplus added path is never filled. -/
theorem C6_counterexample :
    removedOf ["/root/b"] ["/root/a", "/root/b"] = [] ∧
    addedOf ["/root/b"] ["/root/a", "/root/b"] = ["/root/a"] ∧
    (c6State.disk "/root/b").isSome = true ∧
    (changePaths ["/root/b"] ["/root/a", "/root/b"] c6State).isOk = false ∧
    (changePaths ["/root/b"] ["/root/a", "/root/b"] c6State).state.disk
      "/root/a" = none := by
  decide

/-- State for the `changePaths_spec` witness: the file sits at `/root/x`
and is renamed to `/root/y`. -/
def c6WitState : SyncState :=
  { emptyState with disk := fun p =>
      if p = "/root" then some .dir
      else if p = "/root/x" then some (.file "h") else none }

theorem changePaths_spec_witness :
    ∃ s3, changePaths ["/root/x"] ["/root/y"] c6WitState = .mok () s3 ∧
      s3.disk "/root/y" = some (.file "h") ∧ s3.disk "/root/x" = none := by
  obtain ⟨s3, hok, _, hpairs, hrem, _, _, _⟩ :=
    changePaths_spec ["/root/x"] ["/root/y"] c6WitState
      (by decide) (by decide) (by decide) (by decide)
      (by
        intro a ha hs hEq
        have ha' : a = "/root/y" := by
          have := List.mem_filter.mp ha
          simpa using this.1
        subst ha'
        rw [show dirname "/root/y" = "/root" from rfl] at hEq
        rw [show c6WitState.disk "/root" = some .dir from rfl] at hEq
        simp at hEq)
      (by intro h; exact absurd (by decide) h)
  refine ⟨s3, hok, ?_, ?_⟩
  · have := hpairs 0 (by decide) (by decide)
    rw [show (addedOf ["/root/x"] ["/root/y"]).getD 0 "" = "/root/y"
      from rfl] at this
    rw [show (removedOf ["/root/x"] ["/root/y"]).getD 0 "" = "/root/x"
      from rfl] at this
    rw [this]
    rfl
  · exact hrem "/root/x" (by decide)

/-- The alias-copy loop of `downloadFile` and the surplus-copy loop of
`changePaths` perform the same steps. -/
theorem copyAliasLoop_eq_cpCopyLoop (c : String) :
    ∀ (l : List String) (s : SyncState), copyAliasLoop c l s = cpCopyLoop c l s
  | [], _ => rfl
  | a :: rest, s => by
    unfold copyAliasLoop cpCopyLoop
    cases fsCopy c a (logEv (.ignoreEv a) s) with
    | merr e s1 => rfl
    | mok v s1 => exact copyAliasLoop_eq_cpCopyLoop c rest s1

/-- A successful download attempt: ignore the destination, download,
write the temporary file and rename it onto the destination. -/
theorem downloadAttempt_ok (env : RemoteEnv) (id tmp savePath : String)
    (s : SyncState) (h : String) (hok : env.content id = .ok h) :
    downloadAttempt env id tmp savePath s = .mok ()
      { s with
        disk := upd (upd (upd s.disk tmp (some (.file h))) tmp none)
          savePath (some (.file h)),
        events := s.events ++ [.ignoreEv savePath] ++ [.downloadEv id]
          ++ [.renameEv tmp savePath] } := by
  unfold downloadAttempt fsRename
  rw [hok]
  simp [upd, logEv]

/-- A failing download attempt removes the temporary file before
propagating the error. -/
theorem downloadAttempt_err (env : RemoteEnv) (id tmp savePath : String)
    (s : SyncState) (e : JsErr) (herr : env.content id = .error e) :
    downloadAttempt env id tmp savePath s = .merr e
      { s with
        disk := upd s.disk tmp none,
        events := s.events ++ [.ignoreEv savePath] ++ [.downloadEv id]
          ++ [.removeEv tmp] } := by
  unfold downloadAttempt fsRemove
  rw [herr]
  rfl

/-- **C7.**  For a non-ignored, non-folder record with at least one
materialized path `p0 :: rest` (and its parent directory ensured):
(a) when `p0` already holds a file whose md5 equals the record's
`md5Checksum`, the download is skipped entirely — the only further effects
are the ignore/copy pairs onto the remaining paths; (b) when the content
fetch succeeds, the content is written to the temporary file
`"." + name + ".tmp"` under the configured root, renamed onto the canonical
path `p0`, and copied from `p0` to every remaining path, leaving no
temporary file behind; (c) when the content fetch fails, the temporary file
is removed before the error is propagated. -/
theorem downloadFile_spec (fuel : Nat) (env : RemoteEnv) (info : FileRecord)
    (s s1 s2 : SyncState) (p0 : String) (rest : List String)
    (hig : shouldIgnoreFile s info = false)
    (hfold : isFolder info = false)
    (hpaths : getPaths fuel env (some info) s = .mok (p0 :: rest) s1)
    (hmk : mkdirp (dirname p0) s1 = .mok () s2)
    (hp0rest : p0 ∉ rest) :
    (∀ h, s2.disk p0 = some (.file h) → info.md5Checksum = some h →
      ∃ s3, downloadFile fuel env info s = .mok true s3 ∧
        s3.events = s2.events ++ (rest.flatMap fun a =>
          [FsEv.ignoreEv a, FsEv.copyEv p0 a]) ∧
        (∀ a ∈ rest, s3.disk a = some (.file h)) ∧
        s3.disk p0 = some (.file h)) ∧
    (∀ h, env.content info.id = .ok h →
      (match s2.disk p0, info.md5Checksum with
        | some (.file hd), some c => hd == c
        | _, _ => false) = false →
      joinPath s2.folder ("." ++ info.name ++ ".tmp") ∉ rest →
      joinPath s2.folder ("." ++ info.name ++ ".tmp") ≠ p0 →
      ∃ s5, downloadFile fuel env info s = .mok true s5 ∧
        s5.disk p0 = some (.file h) ∧
        (∀ a ∈ rest, s5.disk a = some (.file h)) ∧
        s5.disk (joinPath s2.folder ("." ++ info.name ++ ".tmp")) = none ∧
        s5.events = s2.events
          ++ [FsEv.createTmpEv (joinPath s2.folder ("." ++ info.name ++ ".tmp")),
              FsEv.ignoreEv p0, FsEv.downloadEv info.id,
              FsEv.renameEv (joinPath s2.folder ("." ++ info.name ++ ".tmp")) p0]
          ++ (rest.flatMap fun a => [FsEv.ignoreEv a, FsEv.copyEv p0 a])) ∧
    (∀ e, env.content info.id = .error e →
      (match s2.disk p0, info.md5Checksum with
        | some (.file hd), some c => hd == c
        | _, _ => false) = false →
      ∃ s4, downloadFile fuel env info s = .merr e s4 ∧
        s4.disk (joinPath s2.folder ("." ++ info.name ++ ".tmp")) = none) := by
  refine ⟨?_, ?_, ?_⟩
  · intro h hdisk hmd5
    obtain ⟨s3, h3, hev, htgt, hpres, hfi, hpa, hpic, hold, hrt, hfo⟩ :=
      cpCopyLoop_spec p0 rest s2 (by rw [hdisk]; rfl) hp0rest
    refine ⟨s3, ?_, hev, ?_, ?_⟩
    · unfold downloadFile
      simp only [hig, Bool.false_eq_true, if_false]
      rw [hpaths]
      simp only []
      simp only [hfold, Bool.false_eq_true, if_false]
      rw [hmk]
      simp only []
      rw [hdisk, hmd5]
      simp only [beq_self_eq_true, if_true]
      rw [copyAliasLoop_eq_cpCopyLoop, h3]
    · intro a ha
      rw [htgt a ha, hdisk]
    · rw [hpres p0 hp0rest, hdisk]
  · intro h hok hAD htmprest htmpp0
    set T := joinPath s2.folder ("." ++ info.name ++ ".tmp") with hT
    obtain ⟨s5, h5, hev5, htgt5, hpres5, _, _, _, _, _, _⟩ :=
      cpCopyLoop_spec p0 rest
        { s2 with
          disk := upd (upd (upd (upd s2.disk T (some (.file ""))) T
            (some (.file h))) T none) p0 (some (.file h)),
          events := s2.events ++ [.createTmpEv T] ++ [.ignoreEv p0]
            ++ [.downloadEv info.id] ++ [.renameEv T p0] }
        (by simp [upd]) hp0rest
    refine ⟨s5, ?_, ?_, ?_, ?_, ?_⟩
    · unfold downloadFile
      simp only [hig, Bool.false_eq_true, if_false]
      rw [hpaths]
      simp only []
      simp only [hfold, Bool.false_eq_true, if_false]
      rw [hmk]
      simp only []
      rw [hAD]
      simp only [Bool.false_eq_true, if_false]
      rw [← hT]
      rw [downloadAttempt_ok env info.id T p0 _ h hok]
      simp only []
      rw [copyAliasLoop_eq_cpCopyLoop]
      show (match cpCopyLoop p0 rest
        { s2 with
          disk := upd (upd (upd (upd s2.disk T (some (.file ""))) T
            (some (.file h))) T none) p0 (some (.file h)),
          events := s2.events ++ [.createTmpEv T] ++ [.ignoreEv p0]
            ++ [.downloadEv info.id] ++ [.renameEv T p0] } with
        | .merr e s5 => MRes.merr e s5
        | .mok _ s5 => MRes.mok true s5) = MRes.mok true s5
      rw [h5]
    · rw [hpres5 p0 hp0rest]
      simp [upd]
    · intro a ha
      rw [htgt5 a ha]
      simp [upd]
    · rw [hpres5 T htmprest]
      simp [upd, htmpp0]
    · rw [hev5]
      simp [List.append_assoc]
  · intro e herr hAD
    set T := joinPath s2.folder ("." ++ info.name ++ ".tmp") with hT
    by_cases he : e = .connReset
    · subst he
      refine ⟨{ s2 with
          disk := upd (upd (upd s2.disk T (some (.file ""))) T none) T none,
          events := s2.events ++ [.createTmpEv T] ++ [.ignoreEv p0]
            ++ [.downloadEv info.id] ++ [.removeEv T] ++ [.ignoreEv p0]
            ++ [.downloadEv info.id] ++ [.removeEv T] }, ?_, ?_⟩
      · unfold downloadFile
        simp only [hig, Bool.false_eq_true, if_false]
        rw [hpaths]
        simp only []
        simp only [hfold, Bool.false_eq_true, if_false]
        rw [hmk]
        simp only []
        rw [hAD]
        simp only [Bool.false_eq_true, if_false]
        rw [← hT]
        rw [downloadAttempt_err env info.id T p0 _ .connReset herr]
        simp only [if_true]
        rw [downloadAttempt_err env info.id T p0 _ .connReset herr]
        rfl
      · simp [upd]
    · refine ⟨{ s2 with
          disk := upd (upd s2.disk T (some (.file ""))) T none,
          events := s2.events ++ [.createTmpEv T] ++ [.ignoreEv p0]
            ++ [.downloadEv info.id] ++ [.removeEv T] }, ?_, ?_⟩
      · unfold downloadFile
        simp only [hig, Bool.false_eq_true, if_false]
        rw [hpaths]
        simp only []
        simp only [hfold, Bool.false_eq_true, if_false]
        rw [hmk]
        simp only []
        rw [hAD]
        simp only [Bool.false_eq_true, if_false]
        rw [← hT]
        rw [downloadAttempt_err env info.id T p0 _ e herr]
        simp only []
        rw [if_neg he]
        rfl
      · simp [upd]

theorem downloadFile_spec_witness :
    ∃ s3, downloadFile 10 failEnv c3XRec c3State = .mok true s3 ∧
      s3.disk "/root/x.txt" = some (.file "h") := by
  obtain ⟨ha, _, _⟩ := downloadFile_spec 10 failEnv c3XRec c3State
    ((getPaths 10 failEnv (some c3XRec) c3State).state)
    ((mkdirp (dirname "/root/x.txt")
      ((getPaths 10 failEnv (some c3XRec) c3State).state)).state)
    "/root/x.txt" [] (by decide) (by decide) rfl rfl (by simp)
  obtain ⟨s3, heq, _, _, hdisk⟩ := ha "h" (by decide) (by decide)
  exact ⟨s3, heq, hdisk⟩

/-! ### Claim C2: evolution of a single metadata-cache entry -/

/-- Under a consistent fetch environment, the metadata functions either
leave the cache entry of a fixed `id` alone or overwrite it with the
record the server serves for `id`. -/
def FIdInv (env : RemoteEnv) (id : String) (s s1 : SyncState) : Prop :=
  s1.fileInfo id = s.fileInfo id ∨
    ∃ r, env.fetch id = Except.ok r ∧ s1.fileInfo id = some r

theorem picDeleteAll_fileInfo (l : List String) :
    ∀ s : SyncState, (picDeleteAll l s).fileInfo = s.fileInfo := by
  induction l with
  | nil => intro s; rfl
  | cons p ps ih => intro s; exact ih _

theorem fIdInv_isSome {env : RemoteEnv} {id : String} {s s1 : SyncState}
    (hinv : FIdInv env id s s1) (h : (s.fileInfo id).isSome = true) :
    (s1.fileInfo id).isSome = true := by
  rcases hinv with heq | ⟨r, _, hv⟩
  · rw [heq]
    exact h
  · rw [hv]
    rfl

theorem length_flatMap_join (name : String) : ∀ Fs : List (List String),
    (Fs.flatMap fun qs => qs.map fun q => joinPath q name).length =
      (Fs.map List.length).sum := by
  intro Fs
  induction Fs with
  | nil => rfl
  | cons qs rest ih =>
    simp only [List.flatMap_cons, List.map_cons, List.sum_cons,
      List.length_append, List.length_map, ih]

/-- A successful run of the parents loop decomposes into one block per
parent: the paths of the record the cache resolves for that parent, each
joined with the child's name. -/
theorem getPathsParentsLoop_fanout :
    ∀ (parents : List String) (fuel : Nat) (env : RemoteEnv) (name : String)
      (s : SyncState) (ps : List String) (s1 : SyncState),
    getPathsParentsLoop fuel env name parents s = .mok ps s1 →
    ∃ Fs : List (List String),
      Fs.length = parents.length ∧
      ps = Fs.flatMap (fun qs => qs.map fun q => joinPath q name) ∧
      (∀ i, i < parents.length → ∃ fuelI sA sB sC rI,
        resolveParentInfo fuelI env (parents.getD i "") sA = .mok rI sB ∧
        getPaths fuelI env rI sB = .mok (Fs.getD i []) sC) := by
  intro parents
  induction parents with
  | nil =>
    intro fuel env name s ps s1 h
    have hps : ps = [] := by
      cases fuel with
      | zero => cases h; rfl
      | succ fuel => cases h; rfl
    refine ⟨[], rfl, by rw [hps]; rfl, ?_⟩
    intro i hi
    simp at hi
  | cons p rest ih =>
    intro fuel env name s ps s1 h
    cases fuel with
    | zero => cases h
    | succ fuel =>
      unfold getPathsParentsLoop at h
      cases hr : resolveParentInfo fuel env p s with
      | merr e sB =>
        rw [hr] at h
        cases h
      | mok rI sB =>
        rw [hr] at h
        simp only [] at h
        cases hg : getPaths fuel env rI sB with
        | merr e sC =>
          rw [hg] at h
          cases h
        | mok qs sC =>
          rw [hg] at h
          simp only [] at h
          cases hl : getPathsParentsLoop fuel env name rest sC with
          | merr e s3 =>
            rw [hl] at h
            cases h
          | mok restPs s3 =>
            rw [hl] at h
            simp only [] at h
            obtain ⟨Fs, hlen, hflat, hidx⟩ :=
              ih fuel env name sC restPs s3 hl
            cases h
            refine ⟨qs :: Fs, by simp [hlen], ?_, ?_⟩
            · rw [hflat]
              rfl
            · intro i hi
              cases i with
              | zero => exact ⟨fuel, s, sB, sC, rI, hr, hg⟩
              | succ i =>
                obtain ⟨fuelI, sA, sB2, sC2, rI2, h1, h2⟩ :=
                  hidx i (by simpa using hi)
                exact ⟨fuelI, sA, sB2, sC2, rI2, h1, h2⟩

/-- **C9.**  For a record that is not the root, whose parents are all
resolvable in the cache (no prefetch needed), a successful `getPaths` run
decomposes into one block per parent — the paths of the record the cache
resolves for that parent, each joined with the record's name — so the
number of returned paths is the sum over the parents of the number of
paths of each parent. -/
theorem getPaths_fanout (fuel : Nat) (env : RemoteEnv) (f : FileRecord)
    (s : SyncState) (l : List String) (ps : List String) (s1 : SyncState)
    (hroot : f.id ≠ s.rootId)
    (hpar : f.parents = some l)
    (hcached : (l.filter fun p => needsParentFetch s p).isEmpty = true)
    (hrun : getPaths (fuel + 1) env (some f) s = .mok ps s1) :
    ∃ Fs : List (List String),
      Fs.length = l.length ∧
      ps = Fs.flatMap (fun qs => qs.map fun q => joinPath q f.name) ∧
      ps.length = (Fs.map List.length).sum ∧
      (∀ i, i < l.length → ∃ fuelI sA sB sC rI,
        resolveParentInfo fuelI env (l.getD i "") sA = .mok rI sB ∧
        getPaths fuelI env rI sB = .mok (Fs.getD i []) sC) := by
  unfold getPaths at hrun
  rw [if_neg hroot, hpar] at hrun
  simp only [] at hrun
  rw [hcached] at hrun
  simp only [if_true] at hrun
  obtain ⟨Fs, h1, h2, h3⟩ :=
    getPathsParentsLoop_fanout l fuel env f.name s ps s1 hrun
  exact ⟨Fs, h1, h2, by rw [h2]; exact length_flatMap_join f.name Fs, h3⟩

/-- A folder record `A` under the root. -/
def c9P1 : FileRecord :=
  { id := "P1", name := "A",
    mimeType := "application/vnd.google-apps.folder", md5Checksum := none,
    size := none, modifiedTime := "0", parents := some ["R"],
    trashed := false }

/-- A folder record `B` under the root. -/
def c9P2 : FileRecord :=
  { id := "P2", name := "B",
    mimeType := "application/vnd.google-apps.folder", md5Checksum := none,
    size := none, modifiedTime := "0", parents := some ["R"],
    trashed := false }

/-- A file with the two parents `P1` and `P2`. -/
def c9X : FileRecord :=
  { id := "X", name := "f", mimeType := "text/plain",
    md5Checksum := some "h", size := some 1, modifiedTime := "1",
    parents := some ["P1", "P2"], trashed := false }

/-- A state caching the root and both parents of `c9X`. -/
def c9State : SyncState :=
  { emptyState with fileInfo := fun id =>
      if id = "R" then some c3Root
      else if id = "P1" then some c9P1
      else if id = "P2" then some c9P2
      else if id = "X" then some c9X
      else none }

theorem getPaths_fanout_witness :
    ∃ Fs : List (List String),
      Fs.length = (["P1", "P2"] : List String).length ∧
      ["/root/A/f", "/root/B/f"] =
        Fs.flatMap (fun qs => qs.map fun q => joinPath q c9X.name) ∧
      (["/root/A/f", "/root/B/f"] : List String).length =
        (Fs.map List.length).sum ∧
      (∀ i, i < (["P1", "P2"] : List String).length →
        ∃ fuelI sA sB sC rI,
        resolveParentInfo fuelI failEnv
          ((["P1", "P2"] : List String).getD i "") sA = .mok rI sB ∧
        getPaths fuelI failEnv rI sB = .mok (Fs.getD i []) sC) :=
  getPaths_fanout 9 failEnv c9X c9State ["P1", "P2"]
    ["/root/A/f", "/root/B/f"]
    ((getPaths 10 failEnv (some c9X) c9State).state)
    (by decide) rfl (by decide) rfl

/-! ### Claim C4: re-applying a change -/

theorem listLtB_irrefl : ∀ l : List Char, listLtB l l = false := by
  intro l
  induction l with
  | nil => rfl
  | cons a as ih =>
    unfold listLtB
    simp [ih]

theorem noChange_self (r : FileRecord) : noChange r r = true := by
  simp [noChange, strGt, strLtB, listLtB_irrefl]

theorem setPathsAll_noop (id : String) :
    ∀ (ps : List String) (m : String → Option String),
    (∀ p ∈ ps, m p = some id) → setPathsAll ps id m = m := by
  intro ps
  induction ps with
  | nil => intro m _; rfl
  | cons p rest ih =>
    intro m h
    show setPathsAll rest id (upd m p (some id)) = m
    have hm : upd m p (some id) = m := by
      funext q
      unfold upd
      by_cases hq : q = p
      · subst hq
        rw [if_pos rfl, h q (List.mem_cons_self _ _)]
      · rw [if_neg hq]
    rw [hm]
    exact ih m fun q hq => h q (List.mem_cons_of_mem _ hq)

theorem picDeleteAll_paths (l : List String) :
    ∀ s : SyncState, (picDeleteAll l s).paths = s.paths := by
  induction l with
  | nil => intro s; rfl
  | cons p ps ih => intro s; exact ih _

/-- **C4, amended.**  Re-applying an already-applied change is a no-op on
the Metadata Cache, the Path Index and the disk *provided* the record is
already stored and the re-apply's path walk is cache-only (it leaves cache
and index untouched) and reproduces paths that are all already indexed to
the record — the situation after a clean first apply.  (Without these
provisos idempotence fails: a stale parent side-cache entry makes the first
apply index paths the fresh walk does not, and the second apply then
changes the Path Index.)  The handler returns "no change". -/
theorem handleChange_reapply (fuel : Nat) (env : RemoteEnv) (c : ChangeRec)
    (f : FileRecord) (t t2 : SyncState) (ps2 : List String)
    (hrem : c.removed = false)
    (hfile : c.file = some f)
    (htr : f.trashed = false)
    (hid : f.id = c.fileId)
    (hstored : t.fileInfo c.fileId = some f)
    (hwalk : getPaths fuel env (some f) t = .mok ps2 t2)
    (hFI : t2.fileInfo = t.fileInfo)
    (hPA : t2.paths = t.paths)
    (hindexed : ∀ p ∈ ps2, t.paths p = some f.id) :
    ∃ t1, handleChange (fuel + 2) env c t = .mok false t1 ∧
      t1.fileInfo = t.fileInfo ∧ t1.paths = t.paths ∧ t1.disk = t.disk := by
  have hstore : storeFileInfo (fuel + 2) env f t = .mok f
      { picDeleteAll (f.parents.getD [])
          { t2 with paths := setPathsAll ps2 f.id t2.paths } with
        fileInfo := upd (picDeleteAll (f.parents.getD [])
          { t2 with paths := setPathsAll ps2 f.id t2.paths }).fileInfo
          f.id (some f) } := by
    unfold storeFileInfo computePathsOf
    rw [hwalk]
  refine ⟨{ picDeleteAll (f.parents.getD [])
      { t2 with paths := setPathsAll ps2 f.id t2.paths } with
    fileInfo := upd (picDeleteAll (f.parents.getD [])
      { t2 with paths := setPathsAll ps2 f.id t2.paths }).fileInfo
      f.id (some f) }, ?_, ?_, ?_, ?_⟩
  · unfold handleChange
    simp only [hrem, Bool.false_eq_true, if_false]
    rw [hfile]
    simp only []
    simp only [htr, Bool.false_eq_true, if_false]
    rw [hstored]
    simp only []
    rw [hstore]
    simp only []
    rw [noChange_self]
    simp only [if_true]
  · funext q
    show upd (picDeleteAll (f.parents.getD [])
      { t2 with paths := setPathsAll ps2 f.id t2.paths }).fileInfo
      f.id (some f) q = t.fileInfo q
    unfold upd
    by_cases hq : q = f.id
    · rw [if_pos hq, hq, hid, hstored]
    · rw [if_neg hq]
      rw [picDeleteAll_fileInfo]
      exact congrFun hFI q
  · show (picDeleteAll (f.parents.getD [])
      { t2 with paths := setPathsAll ps2 f.id t2.paths }).paths = t.paths
    rw [picDeleteAll_paths]
    show setPathsAll ps2 f.id t2.paths = t.paths
    rw [hPA]
    exact setPathsAll_noop f.id ps2 t.paths hindexed
  · show (picDeleteAll (f.parents.getD [])
      { t2 with paths := setPathsAll ps2 f.id t2.paths }).disk = t.disk
    have h1 := (fetchFrame_picDeleteAll (f.parents.getD [])
      { t2 with paths := setPathsAll ps2 f.id t2.paths }).1
    rw [h1]
    show t2.disk = t.disk
    have h2 := ((fetchFrame_all env fuel).1 (some f) t).1
    rw [hwalk] at h2
    exact h2

/-- The stale side-cache entry: parent `P` under its old name `A`. -/
def c4POld : FileRecord :=
  { id := "P", name := "A",
    mimeType := "application/vnd.google-apps.folder", md5Checksum := none,
    size := none, modifiedTime := "0", parents := some ["R"],
    trashed := false }

/-- Parent `P` as the metadata cache knows it: renamed to `B`. -/
def c4PNew : FileRecord :=
  { id := "P", name := "B",
    mimeType := "application/vnd.google-apps.folder", md5Checksum := none,
    size := none, modifiedTime := "2", parents := some ["R"],
    trashed := false }

/-- The cached record of `X` before the change. -/
def c4OldX : FileRecord :=
  { id := "X", name := "f.txt", mimeType := "text/plain",
    md5Checksum := some "h", size := some 1, modifiedTime := "1",
    parents := some ["P"], trashed := false }

/-- The changed record of `X`: renamed to `g.txt`, same content. -/
def c4NewX : FileRecord :=
  { id := "X", name := "g.txt", mimeType := "text/plain",
    md5Checksum := some "h", size := some 1, modifiedTime := "3",
    parents := some ["P"], trashed := false }

/-- A reachable state whose parent side cache holds the stale `c4POld`
while the metadata cache already has `c4PNew`. -/
def c4CexState : SyncState :=
  { fileInfo := fun id =>
      if id = "R" then some c3Root
      else if id = "P" then some c4PNew
      else if id = "X" then some c4OldX
      else none
    paths := fun p => if p = "/root/A/f.txt" then some "X" else none
    parentInfoCache := fun p => if p = "P" then some c4POld else none
    onLocalDrive := fun _ => false
    disk := fun p =>
      if p = "/root" then some .dir
      else if p = "/root/B" then some .dir
      else if p = "/root/B/f.txt" then some (.file "h")
      else none
    events := []
    rootId := "R"
    folder := "/root" }

/-- The rename change for `X`. -/
def c4Change : ChangeRec :=
  { removed := false, fileId := "X", file := some c4NewX }

/-- **C4 counterexample.**  Applying the same change twice is *not*
idempotent on the Path Index: from `c4CexState`, the first apply walks the
stale side-cache entry (`P` still named `A`) inside `storeFileInfo` and so
indexes `/root/A/g.txt`, never `/root/B/g.txt`; the second apply deletes
nothing but re-walks with the fresh cache and indexes `/root/B/g.txt`.
Both applications succeed, and the second changes the Path Index. -/
theorem C4_counterexample :
    (handleChange 20 failEnv c4Change c4CexState).isOk = true ∧
    (handleChange 20 failEnv c4Change
      (handleChange 20 failEnv c4Change c4CexState).state).isOk = true ∧
    (handleChange 20 failEnv c4Change c4CexState).state.paths
      "/root/B/g.txt" = none ∧
    (handleChange 20 failEnv c4Change
      (handleChange 20 failEnv c4Change c4CexState).state).state.paths
      "/root/B/g.txt" = some "X" := by
  decide

/-- A state in which the change for `c9X` has been cleanly applied: the
record is stored and both its paths are indexed. -/
def c4WitT : SyncState :=
  { c9State with paths := fun p =>
      if p = "/root/A/f" then some "X"
      else if p = "/root/B/f" then some "X"
      else none }

theorem handleChange_reapply_witness :
    ∃ t1, handleChange 10 failEnv
        { removed := false, fileId := "X", file := some c9X } c4WitT =
      .mok false t1 ∧
      t1.fileInfo = c4WitT.fileInfo ∧ t1.paths = c4WitT.paths ∧
      t1.disk = c4WitT.disk :=
  handleChange_reapply 8 failEnv
    { removed := false, fileId := "X", file := some c9X } c9X c4WitT
    ((getPaths 8 failEnv (some c9X) c4WitT).state)
    ["/root/A/f", "/root/B/f"]
    rfl rfl rfl rfl rfl rfl rfl rfl (by decide)
